import Mathlib

/-!
Verification of the commit-queue validation pool
(`third_party/chromite/cbuildbot/validation_pool.py`).

The Python source is shallowly embedded: changes are natural numbers (their
gerrit identity), review-server lookups are total environment functions,
stateful code is explicit state passing, and code that can raise returns
`Except` or `Option`.  Recursions whose termination the Python source leaves
implicit take an explicit fuel argument; exhausting the fuel is reported as a
distinguished outcome that never corresponds to a Python-level return.
-/

namespace CQ

/-! ## SuspectAnalyzer (`CalculateSuspects.FindSuspects`) -/

/-- A review change as seen by the suspect analyzer.  `shouldReject` models
`HasApproval` over `constants.DEFAULT_CQ_SHOULD_REJECT_FIELDS` (verified -1 /
code-review -2); the constants module is outside the embedded sources, so the
vote check is a field of the change. -/
structure CLChange where
  num : ℕ
  project : String
  internal : Bool
  shouldReject : Bool
deriving DecidableEq, Repr

/-- A build failure message from a slave builder (`BuildFailureMessage`);
`none` models a builder that failed without reporting. -/
structure BuildFailureMessage where
  internal : Bool
  isPackageBuildFailure : Bool
deriving DecidableEq, Repr

/-- `constants.CHROMITE_PROJECT`, the designated infrastructure project. -/
def CHROMITE_PROJECT : String := "chromiumos/chromite"

/-- `ValidationPool.GetShouldRejectChanges`: changes carrying a should-reject
vote. -/
def GetShouldRejectChanges (changes : List CLChange) : List CLChange :=
  changes.filter (fun c => decide (c.shouldReject = true))

/-- `CalculateSuspects.FilterChromiteChanges`: the chromite changes. -/
def FilterChromiteChanges (changes : List CLChange) : List CLChange :=
  changes.filter (fun c => decide (c.project = CHROMITE_PROJECT))

/-- `CalculateSuspects.FindSuspects`.  The overlay filtering
(`FilterInnocentOverlayChanges`, which inspects the checkout on disk) and the
package-build blame computation (`_FindPackageBuildFailureSuspects`) are taken
as opaque function parameters; the claims proved below hold for every choice
of them.  Python returns sets; lists stand in for them here. -/
def FindSuspects
    (overlayFilter : List CLChange → List (Option BuildFailureMessage) → List CLChange)
    (pkgSuspects : List CLChange → List (Option BuildFailureMessage) → List CLChange)
    (changes : List CLChange) (messages : List (Option BuildFailureMessage))
    (infraFail labFail : Bool) : List CLChange :=
  let bad := GetShouldRejectChanges changes
  if bad ≠ [] then bad
  else if labFail = true then []
  else if labFail = false ∧ infraFail = true then FilterChromiteChanges changes
  else
    let candidates :=
      if messages.any (fun m => match m with | some msg => msg.internal | none => false) then
        changes
      else
        changes.filter (fun c => decide (c.internal = false))
    let candidates := overlayFilter candidates messages
    if messages.all (fun m => match m with | some msg => msg.isPackageBuildFailure | none => false) then
      pkgSuspects candidates messages
    else
      candidates

/-! ## Grace-period filtering (`ValidationPool._FilterDependencyErrors`) -/

/-- `ValidationPool.REJECTION_GRACE_PERIOD` (seconds). -/
def REJECTION_GRACE_PERIOD : Int := 30 * 60

/-- A `cros_patch.PatchException` as inspected by the grace-period filter:
whether this node is a `DependencyError`, the `approval_timestamp` of its
`patch`, and the optional chained cause (`error` attribute).  The
`cros_patch` module is outside the embedded sources; this shape follows the
spec's tagged error variants carrying the cause. -/
inductive CQError where
  | leaf (isDep : Bool) (ts : Int)
  | node (isDep : Bool) (ts : Int) (inner : CQError)
deriving DecidableEq, Repr

/-- The `isinstance(error, DependencyError)` flag of the outermost node. -/
def CQError.isDep : CQError → Bool
  | .leaf d _ => d
  | .node d _ _ => d

/-- `error.patch.approval_timestamp` of the outermost node. -/
def CQError.ts : CQError → Int
  | .leaf _ t => t
  | .node _ t _ => t

/-- The cause-chain walk in `_FilterDependencyErrors`: does any node of the
`error`/`error.error`/... chain satisfy `isinstance(_, DependencyError)`. -/
def chainHasDep : CQError → Bool
  | .leaf d _ => d
  | .node d _ e => d || chainHasDep e

/-- `ValidationPool._FilterDependencyErrors` at wall-clock time `now`:
each error is kept unless the patch was approved within the grace period and
its cause chain contains a `DependencyError` (append + conditional pop in the
source, a filter in effect). -/
def FilterDependencyErrors (now : Int) : List CQError → List CQError
  | [] => []
  | e :: rest =>
      if now - REJECTION_GRACE_PERIOD < e.ts ∧ chainHasDep e = true then
        FilterDependencyErrors now rest
      else
        e :: FilterDependencyErrors now rest

/-! ## Submission polling (`ValidationPool._SubmitChange`) -/

/-- `SUBMITTED_WAIT_TIMEOUT` (seconds). -/
def SUBMITTED_WAIT_TIMEOUT : ℕ := 3 * 60

/-- Modelled from the spec: `timeout_util.WaitForSuccess` (not among the
embedded sources) polls `_Query` once per second until the status is no longer
SUBMITTED, giving up after the timeout; `query i` is the status reported by
the review server at the i-th poll.  Returns the first non-SUBMITTED status
within `n` polls starting at poll `i`, or `none` on timeout. -/
def waitNotSubmitted (query : ℕ → String) : ℕ → ℕ → Option String
  | 0, _ => none
  | n + 1, i => if query i = "SUBMITTED" then waitNotSubmitted query n (i + 1) else some (query i)

/-- The status `_SubmitChange` ends up looking at: the status right after the
submit call (poll 0), re-polled for up to `SUBMITTED_WAIT_TIMEOUT` seconds
while it stays SUBMITTED; on timeout the last fetched record (still
SUBMITTED) is kept. -/
def SubmitChangeFinalStatus (query : ℕ → String) : String :=
  if query 0 = "SUBMITTED" then
    (waitNotSubmitted query SUBMITTED_WAIT_TIMEOUT 1).getD (query 0)
  else
    query 0

/-- `ValidationPool._SubmitChange` outcome (`was_change_submitted`): MERGED
counts as submitted, and a change stuck on SUBMITTED after the wait is
treated as merged. -/
def SubmitChange (query : ℕ → String) : Bool :=
  let final := SubmitChangeFinalStatus query
  let was := final == "MERGED"
  if !was && (final == "SUBMITTED") then true else was

/-! ## Notifier message truncation (`PaladinMessage`) -/

/-- `PaladinMessage.MAX_MESSAGE_LEN`. -/
def MAX_MESSAGE_LEN : ℕ := 32000

/-- `PaladinMessage._PALADIN_DOCUMENTATION_URL`. -/
def PALADIN_DOCUMENTATION_URL : List Char :=
  ("http://www.chromium.org/developers/tree-sheriffs/sheriff-details-chromium-os/commit-queue-overview").toList

/-- The marker appended when a message is cut. -/
def truncatedMarker : List Char := "... (truncated)".toList

/-- The fixed text `_ConstructPaladinMessage` appends before the URL. -/
def paladinFooterText : List Char := "\n\nCommit queue documentation: ".toList

/-- `PaladinMessage.__init__`: the stored message, truncated when the input
exceeds `MAX_MESSAGE_LEN` bytes (the byte string is modelled as `List Char`). -/
def PaladinMessageText (message : List Char) : List Char :=
  if MAX_MESSAGE_LEN < message.length then
    message.take MAX_MESSAGE_LEN ++ truncatedMarker
  else
    message

/-- `PaladinMessage._ConstructPaladinMessage`: the body posted as the review
comment by `Send`. -/
def ConstructPaladinMessage (message : List Char) : List Char :=
  PaladinMessageText message ++ (paladinFooterText ++ PALADIN_DOCUMENTATION_URL)

/-! ## CL status store (`UpdateCLStatus` / `GetCLStatus` / `GetCLStatusCount`) -/

/-- A change as keyed by the status store. -/
structure GerritChange where
  internal : Bool
  gerritNumber : ℕ
  patchNumber : ℕ
deriving DecidableEq, Repr

/-- `constants.MANIFEST_VERSIONS_GS_URL` (value modelled; only its identity
matters for the store). -/
def MANIFEST_VERSIONS_GS_URL : String := "gs://chromeos-manifest-versions"

/-- `ValidationPool.GetCLStatusURL`: slash-joined components, with the patch
number appended when tracking the latest patchset only. -/
def GetCLStatusURL (bot : String) (change : GerritChange) (latestPatchsetOnly : Bool) : String :=
  let internal := if change.internal then "int" else "ext"
  let base := MANIFEST_VERSIONS_GS_URL ++ "/" ++ bot ++ "/" ++ internal ++ "/" ++
    toString change.gerritNumber
  if latestPatchsetOnly then base ++ "/" ++ toString change.patchNumber else base

/-- Modelled from the spec: the google-storage client (`chromite.lib.gs`, not
among the embedded sources) as a state: stored objects, counters, and the
process-wide `_CL_STATUS_CACHE` keyed by (bot, change, status, latest). -/
structure GSState where
  objs : String → Option String
  counters : String → ℕ
  statusCache : String × GerritChange × String × Bool → Option ℕ

/-- `GSContext.Copy` of an in-memory value to `url`. -/
def gsSetObj (s : GSState) (url val : String) : GSState :=
  { s with objs := fun k => if k = url then some val else s.objs k }

/-- `GSContext.Counter(url).Increment()`. -/
def gsIncrCounter (s : GSState) (url : String) : GSState :=
  { s with counters := fun k => if k = url then s.counters k + 1 else s.counters k }

/-- `ValidationPool.UpdateCLStatus`: for `latest_patchset_only` in
(False, True), write the status marker and bump the per-status counter; a
dry-run context performs no writes. -/
def UpdateCLStatus (bot : String) (change : GerritChange) (status : String) (dryRun : Bool)
    (s : GSState) : GSState :=
  let doOne := fun (s : GSState) (latest : Bool) =>
    if dryRun then s
    else
      let url := GetCLStatusURL bot change latest
      gsIncrCounter (gsSetObj s (url ++ "/status") status) (url ++ "/" ++ status)
  doOne (doOne s false) true

/-- `ValidationPool.GetCLStatus`: read the latest-patchset status marker;
a missing object (`GSNoSuchKey`) is `none`. -/
def GetCLStatus (bot : String) (change : GerritChange) (s : GSState) : Option String :=
  s.objs (GetCLStatusURL bot change true ++ "/status")

/-- `ValidationPool.GetCLStatusCount`: consult the process-wide cache first;
on a miss read the counter and cache it. -/
def GetCLStatusCount (bot : String) (change : GerritChange) (status : String) (latest : Bool)
    (s : GSState) : ℕ × GSState :=
  let key := (bot, change, status, latest)
  match s.statusCache key with
  | some n => (n, s)
  | none =>
      let n := s.counters (GetCLStatusURL bot change latest ++ "/" ++ status)
      (n, { s with statusCache := fun k => if k = key then some n else s.statusCache k })

/-! ## `HandlePreCQSuccess` -/

/-- `manifest_version.BuilderStatus.STATUS_PASSED` (value modelled; used as an
opaque token). -/
def STATUS_PASSED : String := "passed"

/-- `ValidationPool.STATUS_READY_TO_SUBMIT`. -/
def STATUS_READY_TO_SUBMIT : String := "ready-to-submit"

/-- Python `str.lower`, as a per-character ASCII lowering. -/
def iniLower (s : String) : String := ⟨s.data.map Char.toLower⟩

/-- `ShouldSubmitChangeInPreCQ`: the `submit-in-pre-cq` option of the change's
`COMMIT-QUEUE.ini`, `cfg c = none` covering a missing checkout, a missing
option or a malformed config file; true iff the value lowercases to yes. -/
def ShouldSubmitChangeInPreCQ (cfg : ℕ → Option String) (c : ℕ) : Bool :=
  match cfg c with
  | none => false
  | some v => iniLower v == "yes"

/-- `ValidationPool.HandlePreCQSuccess`.  `clStatus` is the per-change status
visible in the store when the handler starts; the parallel per-change tasks
each read that store and are modelled as independent decisions.  The result
pairs each change with `some s` when it is notified and its status is set to
`s`, and with `none` when it is left untouched.  Note the source computes one
`submit` flag with `all(...)` over the whole pool. -/
def HandlePreCQSuccess (cfg : ℕ → Option String) (changes : List ℕ)
    (clStatus : ℕ → Option String) : List (ℕ × Option String) :=
  let submit := changes.all (fun c => ShouldSubmitChangeInPreCQ cfg c)
  let newStatus := if submit then STATUS_READY_TO_SUBMIT else STATUS_PASSED
  changes.map (fun c =>
    if clStatus c = some STATUS_PASSED ∨ clStatus c = some STATUS_READY_TO_SUBMIT then
      (c, none)
    else
      (c, some newStatus))

/-! ## TransactionPlanner (`PatchSeries.CreateTransaction`)

Changes are their gerrit identities (naturals).  The dependency environment
models the memoized `GetDepsForChange` results (`GerritDependencies` /
`PaladinDependencies` of `cros_patch`, outside the embedded sources); the
lookup cache is modelled as total, so every referenced dependency resolves,
none is server-side merged, and the default `deps_filter_fn` keeps
everything. -/

/-- The per-change dependency environment: gerrit (parent) deps and CQ-DEPEND
deps, in server order. -/
structure DepEnv where
  gdeps : ℕ → List ℕ
  cdeps : ℕ → List ℕ

/-- Planner failures.  `notReady`/`rejected` model
`PatchNotCommitReady`/`PatchRejected` for a dep outside `limit_to`;
`tooLong` models `PatchSeriesTooLong`; `fuelOut` is fuel exhaustion of the
embedding and corresponds to no Python return. -/
inductive PErr where
  | notReady (dep : ℕ)
  | rejected (dep : ℕ)
  | tooLong (change : ℕ) (maxLen : Option ℕ)
  | fuelOut
deriving DecidableEq, Repr

/-- The mutable state threaded through `_AddChangeToPlanWithDeps`: the plan
under construction and the two visited caches. -/
structure PSt where
  plan : List ℕ
  gseen : List ℕ
  cseen : List ℕ
deriving DecidableEq, Repr

/-- Python's `limit_to is not None and dep_change not in limit_to`. -/
def outsideLimit (lim : Option (List ℕ)) (d : ℕ) : Bool :=
  match lim with
  | none => false
  | some L => decide (d ∉ L)

/-- `PatchSeries._LookupUncommittedChanges`: committed deps are dropped, an
uncommitted dep outside `limit_to` raises (`PatchRejected` when submitting,
else `PatchNotCommitReady`), the rest are kept in order. -/
def LookupUncommittedChanges (com : List ℕ) (lim : Option (List ℕ)) (submitting : Bool) :
    List ℕ → Except PErr (List ℕ)
  | [] => .ok []
  | d :: ds =>
      if d ∈ com then LookupUncommittedChanges com lim submitting ds
      else if outsideLimit lim d then .error (if submitting then .rejected d else .notReady d)
      else (LookupUncommittedChanges com lim submitting ds).map (d :: ·)

/-- Error-propagating fold of a step function over a dep list. -/
def foldE (f : PSt → ℕ → Except PErr PSt) : List ℕ → PSt → Except PErr PSt
  | [], st => .ok st
  | d :: ds, st =>
      match f st d with
      | .error e => .error e
      | .ok st' => foldE f ds st'

/-- The gerrit-deps block of `_AddChangeToPlanWithDeps` (lines guarded by
`change not in gerrit_deps_seen`): look up the uncommitted gerrit deps, mark
the change gerrit-visited, and recurse on each dep with `include_cq_deps`
off; `next` is the recursion at one fuel less. -/
def gPhase (env : DepEnv) (com : List ℕ) (lim : Option (List ℕ)) (submitting : Bool)
    (next : ℕ → Bool → PSt → Except PErr PSt) (c : ℕ) (st : PSt) : Except PErr PSt :=
  if c ∈ st.gseen then .ok st
  else
    match LookupUncommittedChanges com lim submitting (env.gdeps c) with
    | .error e => .error e
    | .ok gds => foldE (fun s d => next d false s) gds { st with gseen := c :: st.gseen }

/-- The append and CQ-deps blocks of `_AddChangeToPlanWithDeps`: append the
change if absent, then (when `include_cq_deps` is on and the change is not
CQ-visited) look up the uncommitted CQ deps, mark the change CQ-visited, and
recurse with `include_cq_deps` on over the freshly planned segment
(`plan[old_plan_len:]`) followed by the CQ deps, skipping CQ-visited
entries. -/
def cqTail (env : DepEnv) (com : List ℕ) (lim : Option (List ℕ)) (submitting : Bool)
    (next : ℕ → Bool → PSt → Except PErr PSt) (c : ℕ) (includeCq : Bool) (oldLen : ℕ)
    (st2 : PSt) : Except PErr PSt :=
  let st3 := if c ∈ st2.plan then st2 else { st2 with plan := st2.plan ++ [c] }
  if includeCq = true ∧ c ∉ st3.cseen then
    match LookupUncommittedChanges com lim submitting (env.cdeps c) with
    | .error e => .error e
    | .ok cds =>
        let st4 := { st3 with cseen := c :: st3.cseen }
        foldE (fun s d => if d ∈ s.cseen then .ok s else next d true s)
          (st4.plan.drop oldLen ++ cds) st4
  else .ok st3

/-- `PatchSeries._AddChangeToPlanWithDeps` with fuel: skip committed changes;
process gerrit deps once per change (recursing with `include_cq_deps` off),
append the change if absent, then process the freshly planned segment plus
the CQ deps once per change (recursing with `include_cq_deps` on, skipping
members of the CQ visited cache). -/
def AddChangeToPlanWithDeps (env : DepEnv) (com : List ℕ) (lim : Option (List ℕ))
    (submitting : Bool) : ℕ → ℕ → Bool → PSt → Except PErr PSt
  | 0, _, _, _ => .error .fuelOut
  | fuel + 1, c, includeCq, st =>
      if c ∈ com then .ok st
      else
        match gPhase env com lim submitting
            (fun d b2 s => AddChangeToPlanWithDeps env com lim submitting fuel d b2 s) c st with
        | .error e => .error e
        | .ok st2 =>
            cqTail env com lim submitting
              (fun d b2 s => AddChangeToPlanWithDeps env com lim submitting fuel d b2 s)
              c includeCq st.plan.length st2

/-- `PatchSeries.CreateTransaction`: run the planner on an empty plan and
empty visited caches and return the plan. -/
def CreateTransaction (env : DepEnv) (com : List ℕ) (lim : Option (List ℕ)) (submitting : Bool)
    (fuel : ℕ) (c : ℕ) : Except PErr (List ℕ) :=
  match AddChangeToPlanWithDeps env com lim submitting fuel c true ⟨[], [], []⟩ with
  | .error e => .error e
  | .ok st => .ok st.plan

/-- All gerrit deps of `m` are committed or inside `P`. -/
def gOK (env : DepEnv) (com : List ℕ) (m : ℕ) (P : List ℕ) : Prop :=
  ∀ d ∈ env.gdeps m, d ∈ com ∨ d ∈ P

/-- All CQ deps of `m` are committed or inside `P`. -/
def cOK (env : DepEnv) (com : List ℕ) (m : ℕ) (P : List ℕ) : Prop :=
  ∀ d ∈ env.cdeps m, d ∈ com ∨ d ∈ P

/-- State invariants of the planner: CQ-visited changes are planned or
committed, planned changes are gerrit-visited, planned changes are never
committed, and CQ-visited changes are gerrit-visited. -/
def SIinv (com : List ℕ) (st : PSt) : Prop :=
  (∀ x ∈ st.cseen, x ∈ st.plan ∨ x ∈ com) ∧
  (∀ x ∈ st.plan, x ∈ st.gseen) ∧
  (∀ x ∈ st.plan, x ∉ com) ∧
  (∀ x ∈ st.cseen, x ∈ st.gseen)

/-- How one planner call extends the state: the plan grows by appending, the
visited caches grow, newly gerrit-visited changes have their gerrit deps
planned or committed, and newly CQ-visited changes have their CQ deps planned
or committed. -/
def Ext (env : DepEnv) (com : List ℕ) (st st' : PSt) : Prop :=
  (∃ δ, st'.plan = st.plan ++ δ) ∧
  (∀ x ∈ st.gseen, x ∈ st'.gseen) ∧
  (∀ x ∈ st.cseen, x ∈ st'.cseen) ∧
  (∀ m, m ∈ st'.gseen → m ∉ st.gseen → gOK env com m st'.plan) ∧
  (∀ m, m ∈ st'.cseen → m ∉ st.cseen → cOK env com m st'.plan)

/-- Members planned by a call are CQ-visited (or committed) by its end. -/
def NewCseen (com : List ℕ) (st st' : PSt) : Prop :=
  ∀ m ∈ st'.plan, m ∉ st.plan → m ∈ st'.cseen ∨ m ∈ com

/-- The induction hypothesis shape for one planner recursion step: state
invariants are preserved, the state only extends, the requested change ends
up planned (or was committed), a CQ-mode call leaves it CQ-visited, a CQ-mode
call leaves every newly planned member CQ-visited (or committed), and a
gerrit-mode call never touches the CQ visited cache. -/
def NextSpec (env : DepEnv) (com : List ℕ) (next : ℕ → Bool → PSt → Except PErr PSt) : Prop :=
  ∀ (c : ℕ) (b : Bool) (st st' : PSt), SIinv com st → next c b st = .ok st' →
    SIinv com st' ∧ Ext env com st st' ∧ (c ∈ com ∨ c ∈ st'.plan) ∧
    (b = true → c ∈ com ∨ c ∈ st'.cseen) ∧
    (b = true → NewCseen com st st') ∧
    (b = false → st'.cseen = st.cseen)

/-! ## ApplyEngine (`PatchSeries.Apply` / `_Transaction` / `_ApplyChanges`)

The working tree is a map from repository to HEAD sha; `ApplyChange` is
modelled by an outcome oracle (`none` = the patch applies, updating the repo
HEAD through `applySha`; `some inflight` = it raises a patch error with that
inflight flag) together with `repoOf`, the repository of each change
(`GetGitRepoForChange`). -/

/-- The working tree: the HEAD sha of each repository. -/
structure World where
  heads : ℕ → ℕ

/-- A `cros_patch.PatchException` as seen by `Apply`.  Modelled from the
spec: tagged error variants carry the offending change plus an explicit
inflight/tot flag (`cros_patch` is not among the embedded sources). -/
structure ApErr where
  patch : ℕ
  inflight : Bool
deriving DecidableEq, Repr

/-- `_PatchWrapException` at the `_ApplyChanges` boundary: an exception whose
patch is not the inducing change is wrapped into a `DependencyError` blaming
the inducing change and keeping the cause's inflight flag. -/
def wrapErr (inducing : ℕ) (e : ApErr) : ApErr :=
  if e.patch = inducing then e else ⟨inducing, e.inflight⟩

/-- Planner failures caught by `CreateTransactions` surface as
`PatchException`s blaming the change whose transaction failed, with the tot
(not inflight) flag. -/
def perrToApErr (c : ℕ) (_ : PErr) : ApErr := ⟨c, false⟩

/-- Set one repository HEAD. -/
def setHead (w : World) (r sha : ℕ) : World :=
  ⟨fun x => if x = r then sha else w.heads x⟩

/-- `self.failed_tot.get(change.id)`. -/
def lookupMemo (ft : List (ℕ × ApErr)) (c : ℕ) : Option ApErr :=
  (ft.find? (fun p => p.1 == c)).map (·.2)

/-- The member loop of `_ApplyChanges`: skip committed members, apply the
rest in order; a raising member is memoized in `failed_tot` when its failure
is tot, and the loop raises. -/
def applyLoop (outcome : ℕ → Option Bool) (repoOf : ℕ → ℕ) (applySha : ℕ → ℕ → ℕ)
    (com : List ℕ) : List ℕ → World → List (ℕ × ApErr) →
      World × List (ℕ × ApErr) × Option ApErr
  | [], w, ft => (w, ft, none)
  | c :: rest, w, ft =>
      if c ∈ com then applyLoop outcome repoOf applySha com rest w ft
      else
        match outcome c with
        | none =>
            applyLoop outcome repoOf applySha com rest
              (setHead w (repoOf c) (applySha c (w.heads (repoOf c)))) ft
        | some infl =>
            (w, (if infl then ft else (c, ⟨c, infl⟩) :: ft), some ⟨c, infl⟩)

/-- `PatchSeries._ApplyChanges`: raise the memoized tot failure of any plan
member before touching the tree, else run the member loop. -/
def ApplyChanges (outcome : ℕ → Option Bool) (repoOf : ℕ → ℕ) (applySha : ℕ → ℕ → ℕ)
    (com : List ℕ) (plan : List ℕ) (w : World) (ft : List (ℕ × ApErr)) :
    World × List (ℕ × ApErr) × Option ApErr :=
  match plan.findSome? (fun c => lookupMemo ft c) with
  | some e => (w, ft, some e)
  | none => applyLoop outcome repoOf applySha com plan w ft

/-- The outcome of one transaction inside `Apply`. -/
structure StepRes where
  world : World
  com : List ℕ
  ft : List (ℕ × ApErr)
  err : Option ApErr

/-- One `Apply` loop iteration: run `_ApplyChanges` (with its exception
wrapping) inside `_Transaction`.  Modelled from the spec for the git side:
on failure `git reset --hard` restores every repo of the transaction to the
sha recorded at transaction start and the committed cache reverts to its
pre-transaction copy; the `failed_tot` memo is not part of the rollback.  On
success the transaction's changes enter the committed cache
(`InjectCommittedPatches`). -/
def ApplyTransaction (outcome : ℕ → Option Bool) (repoOf : ℕ → ℕ) (applySha : ℕ → ℕ → ℕ)
    (inducing : ℕ) (plan : List ℕ) (w : World) (com : List ℕ) (ft : List (ℕ × ApErr)) :
    StepRes :=
  let r := ApplyChanges outcome repoOf applySha com plan w ft
  match r.2.2 with
  | none => ⟨r.1, com ++ plan, r.2.1, none⟩
  | some e =>
      ⟨⟨fun ρ => if ρ ∈ plan.map repoOf then w.heads ρ else r.1.heads ρ⟩, com, r.2.1,
        some (wrapErr inducing e)⟩

/-- `CreateTransactions` over the input changes: collect (change, plan)
pairs and the per-change planner failures; fuel exhaustion aborts the
embedding (`none`). -/
def CreateTransactionsAcc (env : DepEnv) (com : List ℕ) (lim : Option (List ℕ)) (fuel : ℕ) :
    List ℕ → Option (List (ℕ × List ℕ) × List ApErr)
  | [] => some ([], [])
  | c :: cs =>
      match CreateTransaction env com lim false fuel c with
      | .ok p =>
          (CreateTransactionsAcc env com lim fuel cs).map (fun r => ((c, p) :: r.1, r.2))
      | .error e =>
          if e = .fuelOut then none
          else
            (CreateTransactionsAcc env com lim fuel cs).map
              (fun r => (r.1, perrToApErr c e :: r.2))

/-- The last-wins index of a change in the input order (the `position`
dict built by `Apply`). -/
def positionOf : List ℕ → ℕ → ℕ
  | [], _ => 0
  | x :: xs, c =>
      if c ∈ xs then positionOf xs c + 1
      else if x = c then 0 else positionOf xs c + 1

/-- The sort key order of `Apply`: longer transactions first, input position
as tie-break (Python sorts ascending by `(-len, position)`). -/
def planKeyLt (position : ℕ → ℕ) (a b : ℕ × List ℕ) : Bool :=
  decide (b.2.length < a.2.length) ||
    (decide (a.2.length = b.2.length) && decide (position a.1 < position b.1))

/-- Stable insertion: an element goes before the first entry it does not
strictly follow. -/
def insertByKey (lt : (ℕ × List ℕ) → (ℕ × List ℕ) → Bool) (x : ℕ × List ℕ) :
    List (ℕ × List ℕ) → List (ℕ × List ℕ)
  | [] => [x]
  | y :: ys => if lt y x then y :: insertByKey lt x ys else x :: y :: ys

/-- Stable sort of the resolved transactions (Python `list.sort` is stable). -/
def sortPlans (lt : (ℕ × List ℕ) → (ℕ × List ℕ) → Bool) :
    List (ℕ × List ℕ) → List (ℕ × List ℕ)
  | [] => []
  | x :: xs => insertByKey lt x (sortPlans lt xs)

/-- The transaction loop of `Apply`: each resolved plan is attempted; on
success its members join `applied` and the committed cache, on failure the
wrapped exception joins `failed`. -/
def applyAll (outcome : ℕ → Option Bool) (repoOf : ℕ → ℕ) (applySha : ℕ → ℕ → ℕ) :
    List (ℕ × List ℕ) → World → List ℕ → List (ℕ × ApErr) → List ℕ → List ApErr →
      World × List ℕ × List (ℕ × ApErr) × List ℕ × List ApErr
  | [], w, com, ft, applied, failed => (w, com, ft, applied, failed)
  | (c, p) :: rest, w, com, ft, applied, failed =>
      let r := ApplyTransaction outcome repoOf applySha c p w com ft
      match r.err with
      | none => applyAll outcome repoOf applySha rest r.world r.com r.ft (applied ++ p) failed
      | some e => applyAll outcome repoOf applySha rest r.world r.com r.ft applied (failed ++ [e])

/-- Order-preserving deduplication (the `_uniq` helper of `Apply`). -/
def uniqAux (seen : List ℕ) : List ℕ → List ℕ
  | [] => []
  | x :: xs => if x ∈ seen then uniqAux seen xs else x :: uniqAux (x :: seen) xs

/-- `PatchSeries.Apply`: fetch is the identity (all remotes allowed, no
filter), resolve every change into a transaction (frozen limits deps to the
input), bail out with the resolution failures when nothing resolved, sort
longest-first unless ordering is honored, run the transactions, deduplicate
`applied`, drop failures whose patch was applied after all, and split the
rest by the inflight flag. -/
def Apply (env : DepEnv) (outcome : ℕ → Option Bool) (repoOf : ℕ → ℕ) (applySha : ℕ → ℕ → ℕ)
    (com0 : List ℕ) (ft0 : List (ℕ × ApErr)) (changes : List ℕ) (frozen honorOrdering : Bool)
    (fuel : ℕ) (w0 : World) : Option (List ℕ × List ApErr × List ApErr) :=
  let lim := if frozen then some changes else none
  match CreateTransactionsAcc env com0 lim fuel changes with
  | none => none
  | some (resolved, failedInit) =>
      if resolved = [] then some ([], failedInit, [])
      else
        let ordered := if honorOrdering then resolved
          else sortPlans (planKeyLt (positionOf changes)) resolved
        let res := applyAll outcome repoOf applySha ordered w0 com0 ft0 [] failedInit
        let appliedU := uniqAux [] res.2.2.2.1
        let failedF := res.2.2.2.2.filter (fun e => decide (e.patch ∉ appliedU))
        some (appliedU, failedF.filter (fun e => e.inflight = false),
          failedF.filter (fun e => e.inflight = true))

/-! ## TransactionPlanner (`PatchSeries.CreateDisjointTransactions`)

`digraph.StronglyConnectedComponents` is a bundled third-party module not
among the embedded sources; following the spec, over the bidirectionally
connected (symmetric) adjacency it produces the unordered connected
components, computed here as saturated reachability sets. -/

/-- One saturation step: a vertex set plus all its neighbours. -/
def stepAdj (adj : ℕ → Finset ℕ) (s : Finset ℕ) : Finset ℕ := s ∪ s.biUnion adj

/-- The vertices reachable from `v` within `bound` saturation steps; with
`bound` at least the vertex count this is the connected component of `v`. -/
def reachFull (adj : ℕ → Finset ℕ) (bound : ℕ) (v : ℕ) : Finset ℕ :=
  (stepAdj adj)^[bound] {v}

/-- Modelled from the spec: the component list, one component per vertex not
already covered by an earlier component. -/
def compsAux (adj : ℕ → Finset ℕ) (bound : ℕ) : List ℕ → List (Finset ℕ) → List (Finset ℕ)
  | [], acc => acc
  | v :: vs, acc =>
      if acc.any (fun K => decide (v ∈ K)) then compsAux adj bound vs acc
      else compsAux adj bound vs (acc ++ [reachFull adj bound v])

/-- The transactions computed for each change (`deps[change]` in the
source): first matching entry. -/
def depsOf (results : List (ℕ × List ℕ)) (c : ℕ) : Option (List ℕ) :=
  (results.find? (fun p => p.1 == c)).map (·.2)

/-- All members of all computed plans (the keys of `edges`). -/
def plansUnion (results : List (ℕ × List ℕ)) : Finset ℕ :=
  results.foldr (fun p acc => p.2.toFinset ∪ acc) ∅

/-- The plan part of the adjacency: every pair of changes appearing together
in some plan is bidirectionally connected. -/
def adjPlans (results : List (ℕ × List ℕ)) (v : ℕ) : Finset ℕ :=
  results.foldr (fun p acc => if v ∈ p.2 then p.2.toFinset ∪ acc else acc) ∅

/-- The `merge_projects` part of the adjacency: all planned changes of one
project are mutually connected. -/
def adjMerge (results : List (ℕ × List ℕ)) (proj : ℕ → ℕ) (mergeProjects : Bool) (v : ℕ) :
    Finset ℕ :=
  if mergeProjects = true ∧ v ∈ results.map (fun p => p.1) then
    ((results.map (fun p => p.1)).filter (fun k => decide (proj k = proj v))).toFinset
  else ∅

/-- The full adjacency of `CreateDisjointTransactions`. -/
def cdAdj (results : List (ℕ × List ℕ)) (proj : ℕ → ℕ) (mergeProjects : Bool) (v : ℕ) :
    Finset ℕ :=
  adjPlans results v ∪ adjMerge results proj mergeProjects v

/-- The vertex list (`list(edges)`): all plan members, plus the planned
changes when merging projects, deduplicated. -/
def cdVertsList (results : List (ℕ × List ℕ)) (mergeProjects : Bool) : List ℕ :=
  ((results.foldr (fun (p : ℕ × List ℕ) acc => p.2 ++ acc) []) ++
    (if mergeProjects = true then results.map (fun p => p.1) else [])).dedup

/-- Python's `not max_txn_length or new_plan_size <= max_txn_length` (note a
zero limit is falsy and disables the check, exactly as in the source). -/
def maxOk (maxTxn : Option ℕ) (n : ℕ) : Bool :=
  match maxTxn with
  | none => true
  | some m => if m = 0 then true else decide (n ≤ m)

/-- The members of a component, iterated in input order (the spec's
"iterate members in input order"; the component is an unordered set). -/
def linMembers (changes : List ℕ) (K : Finset ℕ) : List ℕ :=
  changes.dedup.filter (fun c => decide (c ∈ K))

/-- The per-component linearization: append each member's plan in plan
order, skipping already-appended changes, honoring the max length; a missing
`deps` entry is the source's `KeyError` (`none`). -/
def linearize (results : List (ℕ × List ℕ)) (maxTxn : Option ℕ) :
    List ℕ → List ℕ → Option (List ℕ)
  | [], ordered => some ordered
  | m :: ms, ordered =>
      match depsOf results m with
      | none => none
      | some p =>
          let newC := p.filter (fun d => decide (d ∉ ordered))
          if maxOk maxTxn (ordered.length + newC.length) then
            linearize results maxTxn ms (ordered ++ newC)
          else linearize results maxTxn ms ordered

/-- Iterate the components: a non-empty linearization becomes a plan, an
empty one rejects every member with `PatchSeriesTooLong`. -/
def buildPlans (results : List (ℕ × List ℕ)) (maxTxn : Option ℕ) (changes : List ℕ) :
    List (Finset ℕ) → Option (List (List ℕ) × List PErr)
  | [] => some ([], [])
  | K :: Ks =>
      match linearize results maxTxn (linMembers changes K) [] with
      | none => none
      | some ordered =>
          match buildPlans results maxTxn changes Ks with
          | none => none
          | some r =>
              if ordered = [] then
                some (r.1, (linMembers changes K).map (fun c => PErr.tooLong c maxTxn) ++ r.2)
              else some (ordered :: r.1, r.2)

/-- `CreateTransactions` for the disjoint partition: the caller constructs a
fresh `PatchSeries`, so the committed cache is empty, the limit is the input
change list, and `is_submitting` is off. -/
def gatherTx (env : DepEnv) (changes : List ℕ) (fuel : ℕ) :
    List ℕ → Option (List (ℕ × List ℕ) × List PErr)
  | [] => some ([], [])
  | c :: cs =>
      match CreateTransaction env [] (some changes) false fuel c with
      | .ok p => (gatherTx env changes fuel cs).map (fun r => ((c, p) :: r.1, r.2))
      | .error e =>
          if e = .fuelOut then none
          else (gatherTx env changes fuel cs).map (fun r => (r.1, e :: r.2))

/-- `PatchSeries.CreateDisjointTransactions`: build every single-change
transaction, connect the members of each plan (and optionally each project),
split into components, and linearize each component. -/
def CreateDisjointTransactions (env : DepEnv) (proj : ℕ → ℕ) (changes : List ℕ)
    (maxTxn : Option ℕ) (mergeProjects : Bool) (fuel : ℕ) :
    Option (List (List ℕ) × List PErr) :=
  match gatherTx env changes fuel changes with
  | none => none
  | some r =>
      let adj := cdAdj r.1 proj mergeProjects
      let vlist := cdVertsList r.1 mergeProjects
      let comps := compsAux adj vlist.length vlist []
      match buildPlans r.1 maxTxn changes comps with
      | none => none
      | some r2 => some (r2.1, r.2 ++ r2.2)

/-- One direct dependency step: `b` is a gerrit or CQ dep of `a`. -/
def DepStep (env : DepEnv) (a b : ℕ) : Prop := b ∈ env.gdeps a ∨ b ∈ env.cdeps a

/-- Concrete inputs for the transaction-rollback witness. -/
def c3Outcome : ℕ → Option Bool := fun c => if c = 1 then some true else none

/-- Each change lives in its own repository. -/
def c3Repo : ℕ → ℕ := fun c => c

/-- A head-changing apply function. -/
def c3Sha : ℕ → ℕ → ℕ := fun c old => old + c + 1

/-- A working tree with every repo at sha 7. -/
def c3World : World := ⟨fun _ => 7⟩

/-- The induction hypothesis shape for the limit property: a planner call
only adds members that are inside the limit (or the requested change
itself). -/
def NextLimit (L : List ℕ) (next : ℕ → Bool → PSt → Except PErr PSt) : Prop :=
  ∀ (c : ℕ) (b : Bool) (st st' : PSt), next c b st = .ok st' →
    ∀ m ∈ st'.plan, m ∈ st.plan ∨ m ∈ L ∨ m = c

/-- A one-CQ-dep environment: change 1 CQ-depends on change 0. -/
def c1Env : DepEnv where
  gdeps := fun _ => []
  cdeps := fun n => if n = 1 then [0] else []

/-- A one-gerrit-dep environment: change 1 has gerrit parent 0. -/
def c1WitnessEnv : DepEnv where
  gdeps := fun n => if n = 1 then [0] else []
  cdeps := fun _ => []

/-- A status-store state with nothing written and an empty cache. -/
def emptyGS : GSState where
  objs := fun _ => none
  counters := fun _ => 0
  statusCache := fun _ => none

/-- A status-store state whose process-wide count cache already holds a zero
for (cq-bot, change 1 patchset 2, passed, latest-only). -/
def staleCacheGS : GSState where
  objs := fun _ => none
  counters := fun _ => 0
  statusCache := fun k => if k = ("cq-bot", ⟨false, 1, 2⟩, "passed", true) then some 0 else none

end CQ

namespace CQ

/-! ## Planner state lemmas -/

/-- An extension keeps every previously planned member. -/
theorem Ext_plan_subset {env : DepEnv} {com : List ℕ} {st st' : PSt}
    (h : Ext env com st st') : ∀ x ∈ st.plan, x ∈ st'.plan := by
  obtain ⟨⟨δ, hδ⟩, -, -, -, -⟩ := h
  intro x hx
  rw [hδ]
  exact List.mem_append_left _ hx

/-- Extension is reflexive. -/
theorem Ext_refl (env : DepEnv) (com : List ℕ) (st : PSt) : Ext env com st st := by
  refine ⟨⟨[], by simp⟩, fun x hx => hx, fun x hx => hx, ?_, ?_⟩
  · intro m hm hnm; exact absurd hm hnm
  · intro m hm hnm; exact absurd hm hnm

/-- Extension is transitive. -/
theorem Ext_trans {env : DepEnv} {com : List ℕ} {a b c : PSt}
    (h1 : Ext env com a b) (h2 : Ext env com b c) : Ext env com a c := by
  obtain ⟨⟨δ1, hδ1⟩, hg1, hc1, hG1, hC1⟩ := h1
  obtain ⟨⟨δ2, hδ2⟩, hg2, hc2, hG2, hC2⟩ := h2
  refine ⟨⟨δ1 ++ δ2, by rw [hδ2, hδ1, List.append_assoc]⟩, fun x hx => hg2 x (hg1 x hx),
    fun x hx => hc2 x (hc1 x hx), ?_, ?_⟩
  · intro m hm hnm
    by_cases hmb : m ∈ b.gseen
    · intro d hd
      rcases hG1 m hmb hnm d hd with h | h
      · exact Or.inl h
      · right; rw [hδ2]; exact List.mem_append_left _ h
    · exact hG2 m hm hmb
  · intro m hm hnm
    by_cases hmb : m ∈ b.cseen
    · intro d hd
      rcases hC1 m hmb hnm d hd with h | h
      · exact Or.inl h
      · right; rw [hδ2]; exact List.mem_append_left _ h
    · exact hC2 m hm hmb

/-- A dep not outside the limit is inside any set limit. -/
theorem outsideLimit_false {lim : Option (List ℕ)} {d : ℕ} (h : outsideLimit lim d = false) :
    ∀ L, lim = some L → d ∈ L := by
  intro L hL
  subst hL
  simpa [outsideLimit] using h

/-- A successful dep lookup accounts for every dep: committed or kept. -/
theorem lookup_mem {com : List ℕ} {lim : Option (List ℕ)} {sub : Bool} :
    ∀ {deps l : List ℕ}, LookupUncommittedChanges com lim sub deps = .ok l →
      ∀ d ∈ deps, d ∈ com ∨ d ∈ l := by
  intro deps
  induction deps with
  | nil => intro l h d hd; simp at hd
  | cons x ds ih =>
      intro l h d hd
      rw [List.mem_cons] at hd
      simp only [LookupUncommittedChanges] at h
      by_cases hx : x ∈ com
      · rw [if_pos hx] at h
        rcases hd with rfl | hd'
        · exact Or.inl hx
        · exact ih h d hd'
      · rw [if_neg hx] at h
        by_cases hout : outsideLimit lim x = true
        · rw [if_pos hout] at h
          exact Except.noConfusion h
        · rw [if_neg hout] at h
          cases hrec : LookupUncommittedChanges com lim sub ds with
          | error e => rw [hrec] at h; exact Except.noConfusion h
          | ok l2 =>
              rw [hrec] at h
              simp only [Except.map] at h
              cases h
              rcases hd with rfl | hd'
              · exact Or.inr (List.mem_cons_self _ _)
              · rcases ih hrec d hd' with h2 | h2
                · exact Or.inl h2
                · exact Or.inr (List.mem_cons_of_mem _ h2)

/-- A successful dep lookup only keeps uncommitted deps from the input, all
inside the limit when one is set. -/
theorem lookup_sub {com : List ℕ} {lim : Option (List ℕ)} {sub : Bool} :
    ∀ {deps l : List ℕ}, LookupUncommittedChanges com lim sub deps = .ok l →
      ∀ d ∈ l, d ∈ deps ∧ d ∉ com ∧ ∀ L, lim = some L → d ∈ L := by
  intro deps
  induction deps with
  | nil =>
      intro l h d hd
      simp only [LookupUncommittedChanges] at h
      cases h
      simp at hd
  | cons x ds ih =>
      intro l h d hd
      simp only [LookupUncommittedChanges] at h
      by_cases hx : x ∈ com
      · rw [if_pos hx] at h
        obtain ⟨h1, h2, h3⟩ := ih h d hd
        exact ⟨List.mem_cons_of_mem _ h1, h2, h3⟩
      · rw [if_neg hx] at h
        by_cases hout : outsideLimit lim x = true
        · rw [if_pos hout] at h
          exact Except.noConfusion h
        · rw [if_neg hout] at h
          cases hrec : LookupUncommittedChanges com lim sub ds with
          | error e => rw [hrec] at h; exact Except.noConfusion h
          | ok l2 =>
              rw [hrec] at h
              simp only [Except.map] at h
              cases h
              rcases List.mem_cons.mp hd with rfl | hd'
              · exact ⟨List.mem_cons_self _ _, hx,
                  outsideLimit_false (Bool.not_eq_true _ ▸ hout)⟩
              · obtain ⟨h1, h2, h3⟩ := ih hrec d hd'
                exact ⟨List.mem_cons_of_mem _ h1, h2, h3⟩

/-- Error-propagating fold preserves the invariants, extends the state,
establishes a monotone per-element property for every element, and composes a
step relation. -/
theorem foldE_spec (env : DepEnv) (com : List ℕ) (f : PSt → ℕ → Except PErr PSt)
    (Q : ℕ → PSt → Prop) (B : PSt → PSt → Prop)
    (hf : ∀ s d s2, SIinv com s → f s d = .ok s2 →
      SIinv com s2 ∧ Ext env com s s2 ∧ Q d s2 ∧ B s s2)
    (hQ : ∀ d s1 s2, Q d s1 → Ext env com s1 s2 → Q d s2)
    (hBr : ∀ s, B s s)
    (hBt : ∀ s1 s2 s3, B s1 s2 → B s2 s3 → Ext env com s2 s3 → B s1 s3) :
    ∀ (l : List ℕ) (st st' : PSt), SIinv com st → foldE f l st = .ok st' →
      SIinv com st' ∧ Ext env com st st' ∧ (∀ d ∈ l, Q d st') ∧ B st st' := by
  intro l
  induction l with
  | nil =>
      intro st st' hSI h
      simp only [foldE] at h
      cases h
      exact ⟨hSI, Ext_refl _ _ _, by simp, hBr _⟩
  | cons d ds ih =>
      intro st st' hSI h
      cases hstep : f st d with
      | error e =>
          simp only [foldE, hstep] at h
          exact Except.noConfusion h
      | ok s1 =>
          simp only [foldE, hstep] at h
          obtain ⟨hSI1, hExt1, hQ1, hB1⟩ := hf st d s1 hSI hstep
          obtain ⟨hSI2, hExt2, hQ2, hB2⟩ := ih s1 st' hSI1 h
          refine ⟨hSI2, Ext_trans hExt1 hExt2, ?_, hBt _ _ _ hB1 hB2 hExt2⟩
          intro x hx
          rcases List.mem_cons.mp hx with rfl | hx'
          · exact hQ _ _ _ hQ1 hExt2
          · exact hQ2 x hx'

/-- The gerrit-deps phase: invariants are preserved, the state extends, the
change becomes gerrit-visited, the CQ visited cache is untouched, and the
phase is a no-op for an already CQ-visited change. -/
theorem gPhase_spec {env : DepEnv} {com : List ℕ} {lim : Option (List ℕ)} {sub : Bool}
    {next : ℕ → Bool → PSt → Except PErr PSt} (hnext : NextSpec env com next)
    {c : ℕ} {st st2 : PSt} (hSI : SIinv com st)
    (h : gPhase env com lim sub next c st = .ok st2) :
    SIinv com st2 ∧ Ext env com st st2 ∧ c ∈ st2.gseen ∧ st2.cseen = st.cseen ∧
      (c ∈ st.cseen → st2 = st) := by
  by_cases hg : c ∈ st.gseen
  · simp only [gPhase, if_pos hg] at h
    cases h
    exact ⟨hSI, Ext_refl _ _ _, hg, rfl, fun _ => rfl⟩
  · simp only [gPhase, if_neg hg] at h
    cases hlk : LookupUncommittedChanges com lim sub (env.gdeps c) with
    | error e =>
        simp only [hlk] at h
        exact Except.noConfusion h
    | ok gds =>
        simp only [hlk] at h
        have hSIg : SIinv com { st with gseen := c :: st.gseen } := by
          obtain ⟨s1, s2, s3, s4⟩ := hSI
          exact ⟨s1, fun x hx => List.mem_cons_of_mem _ (s2 x hx), s3,
            fun x hx => List.mem_cons_of_mem _ (s4 x hx)⟩
        obtain ⟨hSI2, hExtg, hQall, hB⟩ :=
          foldE_spec env com (fun s d => next d false s)
            (fun d s2 => d ∈ com ∨ d ∈ s2.plan) (fun s s2 => s2.cseen = s.cseen)
            (fun s d s2 hS hstep => by
              obtain ⟨a, e, q, -, -, f⟩ := hnext d false s s2 hS hstep
              exact ⟨a, e, q, f rfl⟩)
            (fun d s1 s2 hQd hE => by
              rcases hQd with h2 | h2
              · exact Or.inl h2
              · exact Or.inr (Ext_plan_subset hE d h2))
            (fun s => rfl)
            (fun s1 s2 s3 e12 e23 _ => Eq.trans e23 e12)
            gds _ st2 hSIg h
        have hcsg : st2.cseen = st.cseen := hB
        refine ⟨hSI2, ?_, ?_, hcsg, ?_⟩
        · obtain ⟨⟨δ, hδ⟩, hgm, hcm, hGn, hCn⟩ := hExtg
          refine ⟨⟨δ, hδ⟩, ?_, hcm, ?_, ?_⟩
          · intro x hx
            exact hgm x (List.mem_cons_of_mem _ hx)
          · intro m hm hnm
            by_cases hmc : m = c
            · subst hmc
              intro d hd
              rcases lookup_mem hlk d hd with h2 | h2
              · exact Or.inl h2
              · exact hQall d h2
            · refine hGn m hm ?_
              intro hcon
              rcases List.mem_cons.mp hcon with h2 | h2
              · exact hmc h2
              · exact hnm h2
          · intro m hm hnm
            rw [hcsg] at hm
            exact absurd hm hnm
        · exact hExtg.2.1 c (List.mem_cons_self _ _)
        · intro hcs
          exact absurd (hSI.2.2.2 c hcs) hg

/-- The CQ fold: invariants are preserved, the state extends, every iterated
element ends up CQ-visited (or committed), and newly planned members end up
CQ-visited (or committed). -/
theorem cqFold_spec {env : DepEnv} {com : List ℕ} {next : ℕ → Bool → PSt → Except PErr PSt}
    (hnext : NextSpec env com next) {iter : List ℕ} {st4 st5 : PSt} (hSI4 : SIinv com st4)
    (h : foldE (fun s d => if d ∈ s.cseen then .ok s else next d true s) iter st4 = .ok st5) :
    SIinv com st5 ∧ Ext env com st4 st5 ∧ (∀ d ∈ iter, d ∈ com ∨ d ∈ st5.cseen) ∧
      NewCseen com st4 st5 := by
  exact foldE_spec env com _ (fun d s => d ∈ com ∨ d ∈ s.cseen) (NewCseen com)
    (fun s d s2 hS hstep => by
      by_cases hdc : d ∈ s.cseen
      · simp only [if_pos hdc] at hstep
        cases hstep
        exact ⟨hS, Ext_refl _ _ _, Or.inr hdc, fun m hm hnm => absurd hm hnm⟩
      · simp only [if_neg hdc] at hstep
        obtain ⟨a, e, -, h5b, h6, -⟩ := hnext d true s s2 hS hstep
        exact ⟨a, e, h5b rfl, h6 rfl⟩)
    (fun d s1 s2 hQd hE => by
      rcases hQd with h2 | h2
      · exact Or.inl h2
      · exact Or.inr (hE.2.2.1 d h2))
    (fun s m hm hnm => absurd hm hnm)
    (fun s1 s2 s3 n12 n23 e23 m hm hnm => by
      by_cases hm2 : m ∈ s2.plan
      · rcases n12 m hm2 hnm with h2 | h2
        · exact Or.inl (e23.2.2.1 m h2)
        · exact Or.inr h2
      · exact n23 m hm hm2)
    iter st4 st5 hSI4 h

/-- The append-and-CQ phase satisfies the planner call contract relative to
the original state. -/
theorem cqTail_spec {env : DepEnv} {com : List ℕ} {lim : Option (List ℕ)} {sub : Bool}
    {next : ℕ → Bool → PSt → Except PErr PSt} (hnext : NextSpec env com next)
    {c : ℕ} {b : Bool} {st st2 st' : PSt}
    (hSI2 : SIinv com st2) (hExt02 : Ext env com st st2) (hcom : c ∉ com)
    (hcg2 : c ∈ st2.gseen) (hcs2 : st2.cseen = st.cseen)
    (hseen : c ∈ st.cseen → st2 = st)
    (h : cqTail env com lim sub next c b st.plan.length st2 = .ok st') :
    SIinv com st' ∧ Ext env com st st' ∧ c ∈ st'.plan ∧
      (b = true → c ∈ st'.cseen) ∧ (b = true → NewCseen com st st') ∧
      (b = false → st'.cseen = st.cseen) := by
  obtain ⟨δ0, hδ0⟩ := hExt02.1
  by_cases hp : c ∈ st2.plan
  · -- st3 = st2
    simp only [cqTail, if_pos hp] at h
    by_cases hcq : b = true ∧ c ∉ st2.cseen
    · rw [if_pos hcq] at h
      cases hlk : LookupUncommittedChanges com lim sub (env.cdeps c) with
      | error e =>
          simp only [hlk] at h
          exact Except.noConfusion h
      | ok cds =>
          simp only [hlk] at h
          have hSI4 : SIinv com { st2 with cseen := c :: st2.cseen } := by
            obtain ⟨s1, s2, s3, s4⟩ := hSI2
            refine ⟨?_, s2, s3, ?_⟩
            · intro x hx
              rcases List.mem_cons.mp hx with rfl | hx'
              · exact Or.inl hp
              · exact s1 x hx'
            · intro x hx
              rcases List.mem_cons.mp hx with rfl | hx'
              · exact hcg2
              · exact s4 x hx'
          have hiter : ({ st2 with cseen := c :: st2.cseen } : PSt).plan.drop st.plan.length =
              δ0 := by
            simp only [hδ0]
            exact List.drop_left _ _
          rw [hiter] at h
          obtain ⟨hSI5, hExt45, hQall, hNew45⟩ := cqFold_spec hnext hSI4 h
          obtain ⟨⟨δ2, hδ2⟩, hgm45, hcm45, hGn45, hCn45⟩ := hExt45
          have hplan25 : ∀ x ∈ st2.plan, x ∈ st'.plan := by
            intro x hx
            rw [hδ2]
            exact List.mem_append_left _ hx
          have hcseen5 : ∀ x ∈ c :: st2.cseen, x ∈ st'.cseen := hcm45
          refine ⟨hSI5, ?_, hplan25 c hp, ?_, ?_, ?_⟩
          · refine ⟨⟨δ0 ++ δ2, by rw [hδ2]; simp only [hδ0]; rw [List.append_assoc]⟩, ?_, ?_, ?_, ?_⟩
            · intro x hx
              exact hgm45 x (hExt02.2.1 x hx)
            · intro x hx
              exact hcseen5 x (List.mem_cons_of_mem _ (hcs2 ▸ hx))
            · intro m hm hnm
              by_cases hm2 : m ∈ st2.gseen
              · intro d hd
                rcases hExt02.2.2.2.1 m hm2 hnm d hd with h2 | h2
                · exact Or.inl h2
                · exact Or.inr (hplan25 d h2)
              · exact hGn45 m hm hm2
            · intro m hm hnm
              by_cases hmc : m = c
              · subst hmc
                intro d hd
                rcases lookup_mem hlk d hd with h2 | h2
                · exact Or.inl h2
                · rcases hQall d (List.mem_append_right _ h2) with h3 | h3
                  · exact Or.inl h3
                  · rcases hSI5.1 d h3 with h4 | h4
                    · exact Or.inr h4
                    · exact Or.inl h4
              · refine hCn45 m hm ?_
                intro hcon
                rcases List.mem_cons.mp hcon with h2 | h2
                · exact hmc h2
                · rw [hcs2] at h2
                  exact hnm (hcs2 ▸ h2)
          · intro _
            exact hcseen5 c (List.mem_cons_self _ _)
          · intro _ m hm hnm
            by_cases hm4 : m ∈ st2.plan
            · have hmδ : m ∈ δ0 := by
                rcases List.mem_append.mp (hδ0 ▸ hm4) with h2 | h2
                · exact absurd h2 hnm
                · exact h2
              rcases hQall m (List.mem_append_left _ hmδ) with h2 | h2
              · exact Or.inr h2
              · exact Or.inl h2
            · rcases hNew45 m hm hm4 with h2 | h2
              · exact Or.inl h2
              · exact Or.inr h2
          · intro hb
            exact absurd hcq.1 (by simp [hb])
    · rw [if_neg hcq] at h
      cases h
      by_cases hb : b = true
      · have hcc : c ∈ st2.cseen := by
          by_contra hcc
          exact hcq ⟨hb, hcc⟩
        have hccst : c ∈ st.cseen := hcs2 ▸ hcc
        have hst2 : st2 = st := hseen hccst
        subst hst2
        refine ⟨hSI2, Ext_refl _ _ _, hp, fun _ => hcc, ?_, fun hbf => rfl⟩
        intro _ m hm hnm
        exact absurd hm hnm
      · refine ⟨hSI2, hExt02, hp, fun hbt => absurd hbt hb, fun hbt => absurd hbt hb,
          fun _ => hcs2⟩
  · -- st3 appends c
    simp only [cqTail, if_neg hp] at h
    have hSI3 : SIinv com { st2 with plan := st2.plan ++ [c] } := by
      obtain ⟨s1, s2, s3, s4⟩ := hSI2
      refine ⟨?_, ?_, ?_, s4⟩
      · intro x hx
        rcases s1 x hx with h2 | h2
        · exact Or.inl (List.mem_append_left _ h2)
        · exact Or.inr h2
      · intro x hx
        rcases List.mem_append.mp hx with h2 | h2
        · exact s2 x h2
        · rcases List.mem_singleton.mp h2 with rfl
          exact hcg2
      · intro x hx
        rcases List.mem_append.mp hx with h2 | h2
        · exact s3 x h2
        · rcases List.mem_singleton.mp h2 with rfl
          exact hcom
    have hExt23 : Ext env com st2 { st2 with plan := st2.plan ++ [c] } := by
      refine ⟨⟨[c], rfl⟩, fun x hx => hx, fun x hx => hx, ?_, ?_⟩
      · intro m hm hnm; exact absurd hm hnm
      · intro m hm hnm; exact absurd hm hnm
    have hExt03 : Ext env com st { st2 with plan := st2.plan ++ [c] } :=
      Ext_trans hExt02 hExt23
    have hc3 : c ∈ ({ st2 with plan := st2.plan ++ [c] } : PSt).plan :=
      List.mem_append_right _ (List.mem_singleton.mpr rfl)
    by_cases hcq : b = true ∧ c ∉ st2.cseen
    · rw [if_pos hcq] at h
      cases hlk : LookupUncommittedChanges com lim sub (env.cdeps c) with
      | error e =>
          simp only [hlk] at h
          exact Except.noConfusion h
      | ok cds =>
          simp only [hlk] at h
          have hSI4 : SIinv com { st2 with plan := st2.plan ++ [c], cseen := c :: st2.cseen } := by
            obtain ⟨s1, s2, s3, s4⟩ := hSI3
            refine ⟨?_, s2, s3, ?_⟩
            · intro x hx
              rcases List.mem_cons.mp hx with rfl | hx'
              · exact Or.inl hc3
              · exact s1 x hx'
            · intro x hx
              rcases List.mem_cons.mp hx with rfl | hx'
              · exact hcg2
              · exact s4 x hx'
          have hiter : (st2.plan ++ [c]).drop st.plan.length = δ0 ++ [c] := by
            rw [hδ0, List.append_assoc]
            exact List.drop_left _ _
          rw [hiter] at h
          obtain ⟨hSI5, hExt45, hQall, hNew45⟩ := cqFold_spec hnext hSI4 h
          obtain ⟨⟨δ2, hδ2⟩, hgm45, hcm45, hGn45, hCn45⟩ := hExt45
          have hplan35 : ∀ x ∈ st2.plan ++ [c], x ∈ st'.plan := by
            intro x hx
            rw [hδ2]
            exact List.mem_append_left _ hx
          refine ⟨hSI5, ?_, hplan35 c hc3, ?_, ?_, ?_⟩
          · refine ⟨⟨(δ0 ++ [c]) ++ δ2, by
              rw [hδ2]; simp [hδ0, List.append_assoc]⟩, ?_, ?_, ?_, ?_⟩
            · intro x hx
              exact hgm45 x (hExt02.2.1 x hx)
            · intro x hx
              exact hcm45 x (List.mem_cons_of_mem _ (hcs2 ▸ hx))
            · intro m hm hnm
              by_cases hm2 : m ∈ st2.gseen
              · intro d hd
                rcases hExt02.2.2.2.1 m hm2 hnm d hd with h2 | h2
                · exact Or.inl h2
                · exact Or.inr (hplan35 d (List.mem_append_left _ h2))
              · exact hGn45 m hm hm2
            · intro m hm hnm
              by_cases hmc : m = c
              · subst hmc
                intro d hd
                rcases lookup_mem hlk d hd with h2 | h2
                · exact Or.inl h2
                · rcases hQall d (List.mem_append_right _ h2) with h3 | h3
                  · exact Or.inl h3
                  · rcases hSI5.1 d h3 with h4 | h4
                    · exact Or.inr h4
                    · exact Or.inl h4
              · refine hCn45 m hm ?_
                intro hcon
                rcases List.mem_cons.mp hcon with h2 | h2
                · exact hmc h2
                · exact hnm (hcs2 ▸ h2)
          · intro _
            exact hcm45 c (List.mem_cons_self _ _)
          · intro _ m hm hnm
            by_cases hm4 : m ∈ st2.plan ++ [c]
            · have hmδ : m ∈ δ0 ++ [c] := by
                rcases List.mem_append.mp hm4 with h2 | h2
                · rcases List.mem_append.mp (hδ0 ▸ h2) with h3 | h3
                  · exact absurd h3 hnm
                  · exact List.mem_append_left _ h3
                · exact List.mem_append_right _ h2
              rcases hQall m (List.mem_append_left _ hmδ) with h2 | h2
              · exact Or.inr h2
              · exact Or.inl h2
            · rcases hNew45 m hm hm4 with h2 | h2
              · exact Or.inl h2
              · exact Or.inr h2
          · intro hb
            exact absurd hcq.1 (by simp [hb])
    · rw [if_neg hcq] at h
      cases h
      by_cases hb : b = true
      · have hcc : c ∈ st2.cseen := by
          by_contra hcc
          exact hcq ⟨hb, hcc⟩
        have hccst : c ∈ st.cseen := hcs2 ▸ hcc
        have hst2 : st2 = st := hseen hccst
        exact absurd (hst2 ▸ (hSI2.1 c hcc).resolve_right hcom) (hst2 ▸ hp)
      · refine ⟨hSI3, hExt03, hc3, fun hbt => absurd hbt hb, fun hbt => absurd hbt hb,
          fun _ => hcs2⟩

/-- The main planner contract, by induction on fuel. -/
theorem AddChange_spec (env : DepEnv) (com : List ℕ) (lim : Option (List ℕ)) (sub : Bool) :
    ∀ fuel : ℕ,
      NextSpec env com (fun d b2 s => AddChangeToPlanWithDeps env com lim sub fuel d b2 s) := by
  intro fuel
  induction fuel with
  | zero =>
      intro c b st st' hSI h
      simp only [AddChangeToPlanWithDeps] at h
      exact Except.noConfusion h
  | succ fuel ih =>
      intro c b st st' hSI h
      simp only [AddChangeToPlanWithDeps] at h
      by_cases hcom : c ∈ com
      · simp only [if_pos hcom] at h
        cases h
        exact ⟨hSI, Ext_refl _ _ _, Or.inl hcom, fun _ => Or.inl hcom,
          fun _ m hm hnm => absurd hm hnm, fun _ => rfl⟩
      · simp only [if_neg hcom] at h
        cases hgp : gPhase env com lim sub
            (fun d b2 s => AddChangeToPlanWithDeps env com lim sub fuel d b2 s) c st with
        | error e =>
            simp only [hgp] at h
            exact Except.noConfusion h
        | ok st2 =>
            simp only [hgp] at h
            obtain ⟨hSI2, hExt02, hcg2, hcs2, hseen⟩ := gPhase_spec ih hSI hgp
            obtain ⟨a, e, hc3, h5b, h6, h7⟩ :=
              cqTail_spec ih hSI2 hExt02 hcom hcg2 hcs2 hseen h
            exact ⟨a, e, Or.inr hc3, fun hb => Or.inr (h5b hb), h6, h7⟩

/-- A transaction built without raising for an uncommitted change is
non-empty, contains the change, and is dependency-closed up to the committed
cache. -/
theorem CreateTransaction_props (env : DepEnv) (com : List ℕ) (lim : Option (List ℕ))
    (sub : Bool) (fuel c : ℕ) (plan : List ℕ) (hc : c ∉ com)
    (h : CreateTransaction env com lim sub fuel c = .ok plan) :
    plan ≠ [] ∧ c ∈ plan ∧
      ∀ m ∈ plan, ∀ d, (d ∈ env.gdeps m ∨ d ∈ env.cdeps m) → d ∈ com ∨ d ∈ plan := by
  simp only [CreateTransaction] at h
  cases hadd : AddChangeToPlanWithDeps env com lim sub fuel c true ⟨[], [], []⟩ with
  | error e =>
      rw [hadd] at h
      exact Except.noConfusion h
  | ok st =>
      rw [hadd] at h
      cases h
      have hSI0 : SIinv com ⟨[], [], []⟩ := by
        refine ⟨?_, ?_, ?_, ?_⟩ <;> intro x hx <;> simp at hx
      obtain ⟨hSI, hExt, h5a, -, h6, -⟩ :=
        AddChange_spec env com lim sub fuel c true ⟨[], [], []⟩ st hSI0 hadd
      have hcp : c ∈ st.plan := h5a.resolve_left hc
      refine ⟨List.ne_nil_of_mem hcp, hcp, ?_⟩
      intro m hm d hd
      have hmg : m ∈ st.gseen := hSI.2.1 m hm
      have hmc : m ∈ st.cseen := by
        rcases h6 rfl m hm (List.not_mem_nil m) with h2 | h2
        · exact h2
        · exact absurd h2 (hSI.2.2.1 m hm)
      rcases hd with hd | hd
      · exact hExt.2.2.2.1 m hmg (List.not_mem_nil m) d hd
      · exact hExt.2.2.2.2 m hmc (List.not_mem_nil m) d hd

/-- Claim C1 (amended): a transaction built without raising for a change that
is not already committed is non-empty and CONTAINS the requested change, and
every gerrit or CQ dependency of every plan member is either committed or a
member of the plan (CQ dependencies can appear after their dependent, and the
plan need not end with the requested change). -/
theorem C1_theorem (env : DepEnv) (com : List ℕ) (lim : Option (List ℕ)) (sub : Bool)
    (fuel c : ℕ) (plan : List ℕ) (hc : c ∉ com)
    (h : CreateTransaction env com lim sub fuel c = .ok plan) :
    plan ≠ [] ∧ c ∈ plan ∧
      ∀ m ∈ plan, ∀ d, (d ∈ env.gdeps m ∨ d ∈ env.cdeps m) → d ∈ com ∨ d ∈ plan :=
  CreateTransaction_props env com lim sub fuel c plan hc h

/-- Witness for C1 at a concrete input: change 1 with gerrit parent 0
produces the plan [0, 1], which is non-empty, contains 1, and covers every
dependency. -/
theorem C1_witness :
    ([0, 1] : List ℕ) ≠ [] ∧ 1 ∈ ([0, 1] : List ℕ) ∧
      ∀ m ∈ ([0, 1] : List ℕ), ∀ d,
        (d ∈ c1WitnessEnv.gdeps m ∨ d ∈ c1WitnessEnv.cdeps m) →
          d ∈ ([] : List ℕ) ∨ d ∈ ([0, 1] : List ℕ) :=
  C1_theorem c1WitnessEnv [] none false 5 1 [0, 1] (by decide) rfl

/-- Claim C1 counterexample: change 1 CQ-depends on change 0; the transaction
for change 1 is [1, 0], which does not end with the requested change 1, and
the dependency 0 of member 1 appears after 1 rather than earlier (and is not
in the committed cache). -/
theorem C1_counterexample :
    CreateTransaction c1Env [] (some [0, 1]) false 10 1 = .ok [1, 0] ∧
    ([1, 0] : List ℕ).getLast? = some 0 ∧ (0 : ℕ) ≠ 1 ∧
    0 ∈ c1Env.cdeps 1 ∧ (0 : ℕ) ∉ ([] : List ℕ) := by
  refine ⟨rfl, rfl, by decide, by decide, by decide⟩

/-! ## Limit lemmas: with a frozen limit, plans stay inside it -/

/-- The fold only adds members justified by a step. -/
theorem foldE_limit (L : List ℕ) (f : PSt → ℕ → Except PErr PSt)
    (hf : ∀ s d s2, f s d = .ok s2 → ∀ m ∈ s2.plan, m ∈ s.plan ∨ m ∈ L ∨ m = d) :
    ∀ (l : List ℕ) (st st' : PSt), foldE f l st = .ok st' →
      ∀ m ∈ st'.plan, m ∈ st.plan ∨ m ∈ L ∨ m ∈ l := by
  intro l
  induction l with
  | nil =>
      intro st st' h m hm
      simp only [foldE] at h
      cases h
      exact Or.inl hm
  | cons d ds ih =>
      intro st st' h m hm
      cases hstep : f st d with
      | error e =>
          simp only [foldE, hstep] at h
          exact Except.noConfusion h
      | ok s1 =>
          simp only [foldE, hstep] at h
          rcases ih s1 st' h m hm with h2 | h2 | h2
          · rcases hf st d s1 hstep m h2 with h3 | h3 | h3
            · exact Or.inl h3
            · exact Or.inr (Or.inl h3)
            · exact Or.inr (Or.inr (by rw [h3]; exact List.mem_cons_self _ _))
          · exact Or.inr (Or.inl h2)
          · exact Or.inr (Or.inr (List.mem_cons_of_mem _ h2))

/-- The gerrit phase only adds members of the limit. -/
theorem gPhase_limit {env : DepEnv} {com : List ℕ} {sub : Bool} (L : List ℕ)
    {next : ℕ → Bool → PSt → Except PErr PSt} (hnext : NextLimit L next)
    {c : ℕ} {st st2 : PSt} (h : gPhase env com (some L) sub next c st = .ok st2) :
    ∀ m ∈ st2.plan, m ∈ st.plan ∨ m ∈ L := by
  by_cases hg : c ∈ st.gseen
  · simp only [gPhase, if_pos hg] at h
    cases h
    exact fun m hm => Or.inl hm
  · simp only [gPhase, if_neg hg] at h
    cases hlk : LookupUncommittedChanges com (some L) sub (env.gdeps c) with
    | error e =>
        simp only [hlk] at h
        exact Except.noConfusion h
    | ok gds =>
        simp only [hlk] at h
        intro m hm
        rcases foldE_limit L _ (fun s d s2 hstep => hnext d false s s2 hstep) gds _ st2 h
            m hm with h2 | h2 | h2
        · exact Or.inl h2
        · exact Or.inr h2
        · exact Or.inr ((lookup_sub hlk m h2).2.2 L rfl)

/-- The append-and-CQ phase only adds the change itself or members of the
limit. -/
theorem cqTail_limit {env : DepEnv} {com : List ℕ} {sub : Bool} (L : List ℕ)
    {next : ℕ → Bool → PSt → Except PErr PSt} (hnext : NextLimit L next)
    {c : ℕ} {b : Bool} {oldLen : ℕ} {st2 st' : PSt}
    (h : cqTail env com (some L) sub next c b oldLen st2 = .ok st') :
    ∀ m ∈ st'.plan, m ∈ st2.plan ∨ m ∈ L ∨ m = c := by
  have hstep : ∀ (s : PSt) (d : ℕ) (s2 : PSt),
      (if d ∈ s.cseen then Except.ok s else next d true s) = .ok s2 →
      ∀ m ∈ s2.plan, m ∈ s.plan ∨ m ∈ L ∨ m = d := by
    intro s d s2 hst m hm
    by_cases hdc : d ∈ s.cseen
    · rw [if_pos hdc] at hst
      cases hst
      exact Or.inl hm
    · rw [if_neg hdc] at hst
      exact hnext d true s s2 hst m hm
  by_cases hp : c ∈ st2.plan
  · simp only [cqTail, if_pos hp] at h
    by_cases hcq : b = true ∧ c ∉ st2.cseen
    · rw [if_pos hcq] at h
      cases hlk : LookupUncommittedChanges com (some L) sub (env.cdeps c) with
      | error e =>
          simp only [hlk] at h
          exact Except.noConfusion h
      | ok cds =>
          simp only [hlk] at h
          intro m hm
          rcases foldE_limit L _ hstep _ _ st' h m hm with h2 | h2 | h2
          · exact Or.inl h2
          · exact Or.inr (Or.inl h2)
          · rcases List.mem_append.mp h2 with h3 | h3
            · exact Or.inl (List.drop_subset _ _ h3)
            · exact Or.inr (Or.inl ((lookup_sub hlk m h3).2.2 L rfl))
    · rw [if_neg hcq] at h
      cases h
      exact fun m hm => Or.inl hm
  · simp only [cqTail, if_neg hp] at h
    by_cases hcq : b = true ∧ c ∉ st2.cseen
    · rw [if_pos hcq] at h
      cases hlk : LookupUncommittedChanges com (some L) sub (env.cdeps c) with
      | error e =>
          simp only [hlk] at h
          exact Except.noConfusion h
      | ok cds =>
          simp only [hlk] at h
          intro m hm
          rcases foldE_limit L _ hstep _ _ st' h m hm with h2 | h2 | h2
          · rcases List.mem_append.mp h2 with h3 | h3
            · exact Or.inl h3
            · exact Or.inr (Or.inr (List.mem_singleton.mp h3))
          · exact Or.inr (Or.inl h2)
          · rcases List.mem_append.mp h2 with h3 | h3
            · have h4 := List.drop_subset _ _ h3
              rcases List.mem_append.mp h4 with h5 | h5
              · exact Or.inl h5
              · exact Or.inr (Or.inr (List.mem_singleton.mp h5))
            · exact Or.inr (Or.inl ((lookup_sub hlk m h3).2.2 L rfl))
    · rw [if_neg hcq] at h
      cases h
      intro m hm
      rcases List.mem_append.mp hm with h3 | h3
      · exact Or.inl h3
      · exact Or.inr (Or.inr (List.mem_singleton.mp h3))

/-- The planner only adds members of the limit (or the requested change). -/
theorem AddChange_limit (env : DepEnv) (com : List ℕ) (L : List ℕ) (sub : Bool) :
    ∀ fuel : ℕ,
      NextLimit L (fun d b2 s => AddChangeToPlanWithDeps env com (some L) sub fuel d b2 s) := by
  intro fuel
  induction fuel with
  | zero =>
      intro c b st st' h
      simp only [AddChangeToPlanWithDeps] at h
      exact Except.noConfusion h
  | succ fuel ih =>
      intro c b st st' h
      simp only [AddChangeToPlanWithDeps] at h
      by_cases hcom : c ∈ com
      · simp only [if_pos hcom] at h
        cases h
        exact fun m hm => Or.inl hm
      · simp only [if_neg hcom] at h
        cases hgp : gPhase env com (some L) sub
            (fun d b2 s => AddChangeToPlanWithDeps env com (some L) sub fuel d b2 s) c st with
        | error e =>
            simp only [hgp] at h
            exact Except.noConfusion h
        | ok st2 =>
            simp only [hgp] at h
            intro m hm
            rcases cqTail_limit L ih h m hm with h2 | h2 | h2
            · rcases gPhase_limit L ih hgp m h2 with h3 | h3
              · exact Or.inl h3
              · exact Or.inr (Or.inl h3)
            · exact Or.inr (Or.inl h2)
            · exact Or.inr (Or.inr h2)

/-- A frozen transaction stays inside the limit (plus the change itself). -/
theorem CreateTransaction_subset (env : DepEnv) (com : List ℕ) (L : List ℕ) (sub : Bool)
    (fuel c : ℕ) (plan : List ℕ)
    (h : CreateTransaction env com (some L) sub fuel c = .ok plan) :
    ∀ m ∈ plan, m ∈ L ∨ m = c := by
  simp only [CreateTransaction] at h
  cases hadd : AddChangeToPlanWithDeps env com (some L) sub fuel c true ⟨[], [], []⟩ with
  | error e =>
      rw [hadd] at h
      exact Except.noConfusion h
  | ok st =>
      rw [hadd] at h
      cases h
      intro m hm
      rcases AddChange_limit env com L sub fuel c true ⟨[], [], []⟩ st hadd m hm with
        h2 | h2 | h2
      · simp at h2
      · exact Or.inl h2
      · exact Or.inr h2

/-! ## Connected-component lemmas -/

/-- A set is contained in its saturation step. -/
theorem subset_stepAdj (adj : ℕ → Finset ℕ) (s : Finset ℕ) : s ⊆ stepAdj adj s :=
  Finset.subset_union_left

/-- Saturation steps stay inside the vertex set. -/
theorem stepAdj_subset (adj : ℕ → Finset ℕ) (B : Finset ℕ) (hadj : ∀ v, adj v ⊆ B)
    {s : Finset ℕ} (hs : s ⊆ B) : stepAdj adj s ⊆ B := by
  refine Finset.union_subset hs (Finset.biUnion_subset.mpr ?_)
  intro x _
  exact hadj x

/-- A set is contained in any of its iterated saturations. -/
theorem subset_iterate (adj : ℕ → Finset ℕ) : ∀ (n : ℕ) (s : Finset ℕ),
    s ⊆ (stepAdj adj)^[n] s := by
  intro n
  induction n with
  | zero => intro s; exact fun x hx => hx
  | succ m ih =>
      intro s
      rw [Function.iterate_succ_apply']
      exact fun x hx => subset_stepAdj adj _ (ih s hx)

/-- Iterated saturations stay inside the vertex set. -/
theorem iterate_subset (adj : ℕ → Finset ℕ) (B : Finset ℕ) (hadj : ∀ v, adj v ⊆ B) :
    ∀ (n : ℕ) (s : Finset ℕ), s ⊆ B → (stepAdj adj)^[n] s ⊆ B := by
  intro n
  induction n with
  | zero => intro s hs; exact hs
  | succ m ih =>
      intro s hs
      rw [Function.iterate_succ_apply']
      exact stepAdj_subset adj B hadj (ih s hs)

/-- Once an iterate is a fixpoint it stays one. -/
theorem iterate_fix_persists (adj : ℕ → Finset ℕ) (s : Finset ℕ) (j : ℕ)
    (hfix : (stepAdj adj)^[j + 1] s = (stepAdj adj)^[j] s) :
    ∀ i, j ≤ i → (stepAdj adj)^[i] s = (stepAdj adj)^[j] s := by
  intro i hi
  induction i with
  | zero =>
      cases Nat.le_zero.mp hi
      rfl
  | succ m ih =>
      rcases Nat.lt_or_ge j (m + 1) with hlt | hge
      · have hm : j ≤ m := by omega
        rw [Function.iterate_succ_apply', ih hm,
          ← Function.iterate_succ_apply' (stepAdj adj) j s, hfix]
      · have : j = m + 1 := by omega
        rw [this]

/-- Within `bound` steps the saturation of a nonempty subset of the vertex
set reaches a fixpoint, provided `bound` is at least the vertex count. -/
theorem iterate_fixed (adj : ℕ → Finset ℕ) (B : Finset ℕ) (bound : ℕ)
    (hadj : ∀ v, adj v ⊆ B) (hb : B.card ≤ bound) (s : Finset ℕ) (hs : s ⊆ B)
    (hne : s.Nonempty) :
    stepAdj adj ((stepAdj adj)^[bound] s) = (stepAdj adj)^[bound] s := by
  have key : ∀ k : ℕ, (∃ j, j ≤ k ∧ (stepAdj adj)^[j + 1] s = (stepAdj adj)^[j] s) ∨
      s.card + k ≤ ((stepAdj adj)^[k] s).card := by
    intro k
    induction k with
    | zero => right; simp
    | succ m ih =>
        rcases ih with ⟨j, hj, hfix⟩ | hcard
        · exact Or.inl ⟨j, by omega, hfix⟩
        · by_cases hfx : (stepAdj adj)^[m + 1] s = (stepAdj adj)^[m] s
          · exact Or.inl ⟨m, by omega, hfx⟩
          · right
            have hsub : (stepAdj adj)^[m] s ⊆ (stepAdj adj)^[m + 1] s := by
              rw [Function.iterate_succ_apply']
              exact subset_stepAdj adj _
            have hss : (stepAdj adj)^[m] s ⊂ (stepAdj adj)^[m + 1] s :=
              hsub.ssubset_of_ne (fun hcon => hfx hcon.symm)
            have := Finset.card_lt_card hss
            omega
  rcases key bound with ⟨j, hj, hfix⟩ | hcard
  · rw [← Function.iterate_succ_apply' (stepAdj adj) bound s]
    rw [iterate_fix_persists adj s j hfix (bound + 1) (by omega),
      iterate_fix_persists adj s j hfix bound hj]
  · have h1 : 1 ≤ s.card := Finset.card_pos.mpr hne
    have h2 : ((stepAdj adj)^[bound] s).card ≤ B.card :=
      Finset.card_le_card (iterate_subset adj B hadj bound s hs)
    omega

/-- Every vertex reaches itself. -/
theorem mem_reach_self (adj : ℕ → Finset ℕ) (bound v : ℕ) : v ∈ reachFull adj bound v :=
  subset_iterate adj bound {v} (Finset.mem_singleton_self v)

/-- Reachability sets stay inside the vertex set. -/
theorem reach_subset (adj : ℕ → Finset ℕ) (B : Finset ℕ) (bound : ℕ)
    (hadj : ∀ v, adj v ⊆ B) {v : ℕ} (hv : v ∈ B) : reachFull adj bound v ⊆ B :=
  iterate_subset adj B hadj bound {v} (Finset.singleton_subset_iff.mpr hv)

/-- A saturated reachability set is closed under adjacency. -/
theorem reach_closed (adj : ℕ → Finset ℕ) (B : Finset ℕ) (bound : ℕ)
    (hadj : ∀ v, adj v ⊆ B) (hb : B.card ≤ bound) {v : ℕ} (hv : v ∈ B) :
    ∀ u ∈ reachFull adj bound v, adj u ⊆ reachFull adj bound v := by
  intro u hu x hx
  have hfix := iterate_fixed adj B bound hadj hb {v}
    (Finset.singleton_subset_iff.mpr hv) ⟨v, Finset.mem_singleton_self v⟩
  simp only [reachFull] at hu ⊢
  rw [← hfix]
  exact Finset.mem_union_right _ (Finset.mem_biUnion.mpr ⟨u, hu, hx⟩)

/-- A reachability set is contained in any adjacency-closed set holding its
root. -/
theorem reach_min (adj : ℕ → Finset ℕ) (bound : ℕ) {v : ℕ} {C : Finset ℕ} (hv : v ∈ C)
    (hC : ∀ u ∈ C, adj u ⊆ C) : reachFull adj bound v ⊆ C := by
  have : ∀ (n : ℕ), (stepAdj adj)^[n] {v} ⊆ C := by
    intro n
    induction n with
    | zero => exact Finset.singleton_subset_iff.mpr hv
    | succ m ih =>
        rw [Function.iterate_succ_apply']
        refine Finset.union_subset ih (Finset.biUnion_subset.mpr ?_)
        intro x hx
        exact hC x (ih hx)
  exact this bound

/-- Reachability is transitive. -/
theorem reach_trans (adj : ℕ → Finset ℕ) (B : Finset ℕ) (bound : ℕ)
    (hadj : ∀ v, adj v ⊆ B) (hb : B.card ≤ bound) {v u : ℕ} (hv : v ∈ B)
    (hu : u ∈ reachFull adj bound v) : reachFull adj bound u ⊆ reachFull adj bound v :=
  reach_min adj bound hu (reach_closed adj B bound hadj hb hv)

/-- With a symmetric adjacency, reachability is symmetric. -/
theorem reach_symm (adj : ℕ → Finset ℕ) (B : Finset ℕ) (bound : ℕ)
    (hadj : ∀ v, adj v ⊆ B) (hsym : ∀ a b, a ∈ adj b ↔ b ∈ adj a) (hb : B.card ≤ bound)
    {v u : ℕ} (hv : v ∈ B) (hu : u ∈ reachFull adj bound v) :
    v ∈ reachFull adj bound u := by
  have hsubC : reachFull adj bound v ⊆ B.filter (fun w => v ∈ reachFull adj bound w) := by
    refine reach_min adj bound ?_ ?_
    · exact Finset.mem_filter.mpr ⟨hv, mem_reach_self adj bound v⟩
    · intro w hw x hx
      obtain ⟨hwB, hvw⟩ := Finset.mem_filter.mp hw
      have hxB : x ∈ B := hadj w hx
      refine Finset.mem_filter.mpr ⟨hxB, ?_⟩
      have hwx : w ∈ adj x := (hsym w x).mpr hx
      have hwreach : w ∈ reachFull adj bound x :=
        reach_closed adj B bound hadj hb hxB x (mem_reach_self adj bound x) hwx
      exact reach_trans adj B bound hadj hb hxB hwreach hvw
  exact (Finset.mem_filter.mp (hsubC hu)).2

/-- The component construction: components are reachability sets, pairwise
disjoint, cover every vertex, and extend the incoming accumulator. -/
theorem compsAux_spec (adj : ℕ → Finset ℕ) (B : Finset ℕ) (bound : ℕ)
    (hadj : ∀ v, adj v ⊆ B) (hsym : ∀ a b, a ∈ adj b ↔ b ∈ adj a) (hb : B.card ≤ bound) :
    ∀ (vs : List ℕ) (acc : List (Finset ℕ)),
      (∀ v ∈ vs, v ∈ B) →
      (∀ K ∈ acc, ∃ u, u ∈ B ∧ K = reachFull adj bound u) →
      List.Pairwise (fun K1 K2 => ∀ x, x ∈ K1 → x ∉ K2) acc →
      (∀ K ∈ compsAux adj bound vs acc, ∃ u, u ∈ B ∧ K = reachFull adj bound u) ∧
      List.Pairwise (fun K1 K2 => ∀ x, x ∈ K1 → x ∉ K2) (compsAux adj bound vs acc) ∧
      (∀ v ∈ vs, ∃ K ∈ compsAux adj bound vs acc, v ∈ K) ∧
      (∀ K ∈ acc, K ∈ compsAux adj bound vs acc) := by
  intro vs
  induction vs with
  | nil =>
      intro acc hvs hrep hpair
      simp only [compsAux]
      exact ⟨hrep, hpair, by simp, fun K hK => hK⟩
  | cons v vs ih =>
      intro acc hvs hrep hpair
      have hvB : v ∈ B := hvs v (List.mem_cons_self _ _)
      have hvs2 : ∀ w ∈ vs, w ∈ B := fun w hw => hvs w (List.mem_cons_of_mem _ hw)
      by_cases hcov : acc.any (fun K => decide (v ∈ K)) = true
      · simp only [compsAux, if_pos hcov]
        obtain ⟨hrep2, hpair2, hcover2, hpres2⟩ := ih acc hvs2 hrep hpair
        refine ⟨hrep2, hpair2, ?_, hpres2⟩
        intro w hw
        rcases List.mem_cons.mp hw with rfl | hw'
        · obtain ⟨K, hKacc, hvK⟩ := by
            simpa using List.any_eq_true.mp hcov
          exact ⟨K, hpres2 K hKacc, hvK⟩
        · exact hcover2 w hw'
      · simp only [compsAux, if_neg hcov]
        have hnotin : ∀ K ∈ acc, v ∉ K := by
          intro K hK hvK
          exact hcov (List.any_eq_true.mpr ⟨K, hK, by simpa using hvK⟩)
        have hrep2 : ∀ K ∈ acc ++ [reachFull adj bound v],
            ∃ u, u ∈ B ∧ K = reachFull adj bound u := by
          intro K hK
          rcases List.mem_append.mp hK with hK' | hK'
          · exact hrep K hK'
          · rcases List.mem_singleton.mp hK' with rfl
            exact ⟨v, hvB, rfl⟩
        have hpair2 : List.Pairwise (fun K1 K2 => ∀ x, x ∈ K1 → x ∉ K2)
            (acc ++ [reachFull adj bound v]) := by
          rw [List.pairwise_append]
          refine ⟨hpair, by simp, ?_⟩
          intro K1 hK1 K2 hK2
          rcases List.mem_singleton.mp hK2 with rfl
          intro x hx1 hx2
          obtain ⟨u, huB, rfl⟩ := hrep K1 hK1
          have hvx : v ∈ reachFull adj bound x := by
            have hxB : x ∈ B := reach_subset adj B bound hadj hvB hx2
            exact reach_symm adj B bound hadj hsym hb hvB hx2
          have hxu : reachFull adj bound x ⊆ reachFull adj bound u :=
            reach_trans adj B bound hadj hb huB hx1
          exact hnotin _ hK1 (hxu hvx)
        obtain ⟨hrep3, hpair3, hcover3, hpres3⟩ := ih _ hvs2 hrep2 hpair2
        refine ⟨hrep3, hpair3, ?_, ?_⟩
        · intro w hw
          rcases List.mem_cons.mp hw with rfl | hw'
          · exact ⟨reachFull adj bound w,
              hpres3 _ (List.mem_append_right _ (List.mem_singleton.mpr rfl)),
              mem_reach_self adj bound w⟩
          · exact hcover3 w hw'
        · intro K hK
          exact hpres3 K (List.mem_append_left _ hK)

/-! ## Disjoint-transaction lemmas -/

/-- What `CreateTransactions` collects: every resolved pair is a successful
transaction, and every successful change is resolved. -/
theorem gatherTx_spec (env : DepEnv) (changes : List ℕ) (fuel : ℕ) :
    ∀ (cs : List ℕ) (results : List (ℕ × List ℕ)) (failed : List PErr),
      gatherTx env changes fuel cs = some (results, failed) →
      (∀ p ∈ results, CreateTransaction env [] (some changes) false fuel p.1 = .ok p.2) ∧
      (∀ c ∈ cs, ∀ pl, CreateTransaction env [] (some changes) false fuel c = .ok pl →
        (c, pl) ∈ results) := by
  intro cs
  induction cs with
  | nil =>
      intro results failed h
      simp only [gatherTx] at h
      cases h
      exact ⟨by simp, by simp⟩
  | cons c cs ih =>
      intro results failed h
      cases hct : CreateTransaction env [] (some changes) false fuel c with
      | ok p =>
          simp only [gatherTx, hct] at h
          cases hrec : gatherTx env changes fuel cs with
          | none => rw [hrec] at h; exact Option.noConfusion h
          | some pr =>
              rw [hrec] at h
              simp only [Option.map] at h
              cases h
              obtain ⟨ih1, ih2⟩ := ih pr.1 pr.2 (by rw [hrec])
              constructor
              · intro q hq
                rcases List.mem_cons.mp hq with rfl | hq'
                · exact hct
                · exact ih1 q hq'
              · intro c2 hc2 pl hpl
                rcases List.mem_cons.mp hc2 with rfl | hc2'
                · have : p = pl := Except.ok.inj (hct.symm.trans hpl)
                  rw [← this]
                  exact List.mem_cons_self _ _
                · exact List.mem_cons_of_mem _ (ih2 c2 hc2' pl hpl)
      | error pe =>
          simp only [gatherTx, hct] at h
          by_cases hpe : pe = .fuelOut
          · rw [if_pos hpe] at h
            exact Option.noConfusion h
          · rw [if_neg hpe] at h
            cases hrec : gatherTx env changes fuel cs with
            | none => rw [hrec] at h; exact Option.noConfusion h
            | some pr =>
                rw [hrec] at h
                simp only [Option.map] at h
                cases h
                obtain ⟨ih1, ih2⟩ := ih pr.1 pr.2 (by rw [hrec])
                refine ⟨ih1, ?_⟩
                intro c2 hc2 pl hpl
                rcases List.mem_cons.mp hc2 with rfl | hc2'
                · rw [hct] at hpl
                  exact Except.noConfusion hpl
                · exact ih2 c2 hc2' pl hpl

/-- Membership in the concatenation of all plans. -/
theorem foldrAppend_mem (results : List (ℕ × List ℕ)) (x : ℕ) :
    x ∈ results.foldr (fun (p : ℕ × List ℕ) acc => p.2 ++ acc) [] ↔
      ∃ p ∈ results, x ∈ p.2 := by
  induction results with
  | nil => simp
  | cons q qs ih =>
      simp only [List.foldr_cons, List.mem_append, ih, List.mem_cons]
      constructor
      · rintro (h | ⟨p, hp, hx⟩)
        · exact ⟨q, Or.inl rfl, h⟩
        · exact ⟨p, Or.inr hp, hx⟩
      · rintro ⟨p, hp | hp, hx⟩
        · rw [hp] at hx
          exact Or.inl hx
        · exact Or.inr ⟨p, hp, hx⟩

/-- Membership in the vertex list. -/
theorem cdVertsList_mem (results : List (ℕ × List ℕ)) (mp : Bool) (x : ℕ) :
    x ∈ cdVertsList results mp ↔
      ((∃ p ∈ results, x ∈ p.2) ∨
        (mp = true ∧ x ∈ results.map (fun p => p.1))) := by
  by_cases hmp : mp = true <;>
    simp [cdVertsList, List.mem_dedup, List.mem_append, foldrAppend_mem, hmp]

/-- Membership in the plan adjacency. -/
theorem adjPlans_mem (results : List (ℕ × List ℕ)) (v x : ℕ) :
    x ∈ adjPlans results v ↔ ∃ p ∈ results, v ∈ p.2 ∧ x ∈ p.2 := by
  induction results with
  | nil => simp [adjPlans]
  | cons q qs ih =>
      simp only [adjPlans, List.foldr_cons] at ih ⊢
      by_cases hv : v ∈ q.2
      · rw [if_pos hv]
        simp only [Finset.mem_union, List.mem_toFinset, ih, List.mem_cons]
        constructor
        · rintro (h | ⟨p, hp, hvp, hxp⟩)
          · exact ⟨q, Or.inl rfl, hv, h⟩
          · exact ⟨p, Or.inr hp, hvp, hxp⟩
        · rintro ⟨p, hp | hp, hvp, hxp⟩
          · rw [hp] at hxp
            exact Or.inl hxp
          · exact Or.inr ⟨p, hp, hvp, hxp⟩
      · rw [if_neg hv]
        simp only [ih, List.mem_cons]
        constructor
        · rintro ⟨p, hp, hvp, hxp⟩
          exact ⟨p, Or.inr hp, hvp, hxp⟩
        · rintro ⟨p, hp | hp, hvp, hxp⟩
          · rw [hp] at hvp
            exact absurd hvp hv
          · exact ⟨p, hp, hvp, hxp⟩

/-- Membership in the project-merge adjacency. -/
theorem adjMerge_mem (results : List (ℕ × List ℕ)) (proj : ℕ → ℕ) (mp : Bool) (v x : ℕ) :
    x ∈ adjMerge results proj mp v ↔
      (mp = true ∧ v ∈ results.map (fun p => p.1) ∧ x ∈ results.map (fun p => p.1) ∧
        proj x = proj v) := by
  simp only [adjMerge]
  by_cases hc : mp = true ∧ v ∈ results.map (fun p => p.1)
  · rw [if_pos hc]
    simp only [List.mem_toFinset, List.mem_filter, decide_eq_true_eq]
    constructor
    · rintro ⟨h1, h2⟩
      exact ⟨hc.1, hc.2, h1, h2⟩
    · rintro ⟨-, -, h3, h4⟩
      exact ⟨h3, h4⟩
  · rw [if_neg hc]
    simp only [Finset.not_mem_empty, false_iff]
    rintro ⟨h1, h2, -, -⟩
    exact hc ⟨h1, h2⟩

/-- The adjacency is symmetric. -/
theorem cdAdj_symm (results : List (ℕ × List ℕ)) (proj : ℕ → ℕ) (mp : Bool) :
    ∀ a b, a ∈ cdAdj results proj mp b ↔ b ∈ cdAdj results proj mp a := by
  have key : ∀ a b, a ∈ cdAdj results proj mp b → b ∈ cdAdj results proj mp a := by
    intro a b h
    rcases Finset.mem_union.mp h with h2 | h2
    · obtain ⟨p, hp, hbp, hap⟩ := (adjPlans_mem results b a).mp h2
      exact Finset.mem_union_left _ ((adjPlans_mem results a b).mpr ⟨p, hp, hap, hbp⟩)
    · obtain ⟨h1, h2l, h3, h4⟩ := (adjMerge_mem results proj mp b a).mp h2
      exact Finset.mem_union_right _
        ((adjMerge_mem results proj mp a b).mpr ⟨h1, h3, h2l, h4.symm⟩)
  intro a b
  exact ⟨key a b, key b a⟩

/-- The adjacency stays inside the vertex set. -/
theorem cdAdj_subset (results : List (ℕ × List ℕ)) (proj : ℕ → ℕ) (mp : Bool) :
    ∀ v, cdAdj results proj mp v ⊆ (cdVertsList results mp).toFinset := by
  intro v x hx
  rw [List.mem_toFinset, cdVertsList_mem]
  rcases Finset.mem_union.mp hx with h | h
  · obtain ⟨p, hp, -, hxp⟩ := (adjPlans_mem results v x).mp h
    exact Or.inl ⟨p, hp, hxp⟩
  · obtain ⟨h1, -, h3, -⟩ := (adjMerge_mem results proj mp v x).mp h
    exact Or.inr ⟨h1, h3⟩

/-- A found deps entry is a resolved pair. -/
theorem depsOf_mem {results : List (ℕ × List ℕ)} {c : ℕ} {p : List ℕ}
    (h : depsOf results c = some p) : (c, p) ∈ results := by
  simp only [depsOf] at h
  cases hf : results.find? (fun q => q.1 == c) with
  | none => rw [hf] at h; exact Option.noConfusion h
  | some pr =>
      rw [hf] at h
      simp only [Option.map] at h
      cases h
      have hmem := List.mem_of_find?_eq_some hf
      have hpred : pr.1 = c := by simpa using List.find?_some hf
      have hpr : pr = (c, pr.2) := by
        rw [← hpred]
      rw [← hpr]
      exact hmem

/-- Determinism: a resolved pair is what the deps lookup finds. -/
theorem depsOf_of_mem {env : DepEnv} {changes : List ℕ} {fuel : ℕ}
    {results : List (ℕ × List ℕ)}
    (hG1 : ∀ p ∈ results, CreateTransaction env [] (some changes) false fuel p.1 = .ok p.2)
    {c : ℕ} {p : List ℕ} (hm : (c, p) ∈ results) : depsOf results c = some p := by
  simp only [depsOf]
  cases hf : results.find? (fun q => q.1 == c) with
  | none =>
      rw [List.find?_eq_none] at hf
      exact absurd (by simp) (hf (c, p) hm)
  | some pr =>
      have hc : pr.1 = c := by simpa using List.find?_some hf
      have h1 := hG1 pr (List.mem_of_find?_eq_some hf)
      have h2 := hG1 (c, p) hm
      rw [hc] at h1
      have hp2 : pr.2 = p := Except.ok.inj (h1.symm.trans h2)
      simp [Option.map, hp2]

/-- Linearization only appends. -/
theorem linearize_grow (results : List (ℕ × List ℕ)) (maxTxn : Option ℕ) :
    ∀ (ms ordered ordered2 : List ℕ), linearize results maxTxn ms ordered = some ordered2 →
      ∀ x ∈ ordered, x ∈ ordered2 := by
  intro ms
  induction ms with
  | nil =>
      intro ordered ordered2 h x hx
      simp only [linearize] at h
      cases h
      exact hx
  | cons m ms ih =>
      intro ordered ordered2 h x hx
      cases hdep : depsOf results m with
      | none =>
          simp only [linearize, hdep] at h
          exact Option.noConfusion h
      | some p =>
          simp only [linearize, hdep] at h
          by_cases hok :
              maxOk maxTxn (ordered.length + (p.filter (fun d => decide (d ∉ ordered))).length) =
                true
          · rw [if_pos hok] at h
            exact ih _ ordered2 h x (List.mem_append_left _ hx)
          · rw [if_neg hok] at h
            exact ih _ ordered2 h x hx

/-- Every linearized member comes from some iterated member's plan. -/
theorem linearize_src (results : List (ℕ × List ℕ)) (maxTxn : Option ℕ) :
    ∀ (ms ordered ordered2 : List ℕ), linearize results maxTxn ms ordered = some ordered2 →
      ∀ x ∈ ordered2, x ∈ ordered ∨
        ∃ m ∈ ms, ∃ p, depsOf results m = some p ∧ x ∈ p := by
  intro ms
  induction ms with
  | nil =>
      intro ordered ordered2 h x hx
      simp only [linearize] at h
      cases h
      exact Or.inl hx
  | cons m ms ih =>
      intro ordered ordered2 h x hx
      cases hdep : depsOf results m with
      | none =>
          simp only [linearize, hdep] at h
          exact Option.noConfusion h
      | some p =>
          simp only [linearize, hdep] at h
          by_cases hok :
              maxOk maxTxn (ordered.length + (p.filter (fun d => decide (d ∉ ordered))).length) =
                true
          · rw [if_pos hok] at h
            rcases ih _ ordered2 h x hx with h2 | ⟨m2, hm2, p2, hp2, hx2⟩
            · rcases List.mem_append.mp h2 with h3 | h3
              · exact Or.inl h3
              · exact Or.inr ⟨m, List.mem_cons_self _ _, p, hdep, (List.mem_filter.mp h3).1⟩
            · exact Or.inr ⟨m2, List.mem_cons_of_mem _ hm2, p2, hp2, hx2⟩
          · rw [if_neg hok] at h
            rcases ih _ ordered2 h x hx with h2 | ⟨m2, hm2, p2, hp2, hx2⟩
            · exact Or.inl h2
            · exact Or.inr ⟨m2, List.mem_cons_of_mem _ hm2, p2, hp2, hx2⟩

/-- With no length limit, every iterated member's whole plan ends up in the
linearization. -/
theorem linearize_cover (results : List (ℕ × List ℕ)) :
    ∀ (ms ordered ordered2 : List ℕ), linearize results none ms ordered = some ordered2 →
      ∀ m ∈ ms, ∀ p, depsOf results m = some p → ∀ d ∈ p, d ∈ ordered2 := by
  intro ms
  induction ms with
  | nil =>
      intro ordered ordered2 h m hm
      simp at hm
  | cons m2 ms ih =>
      intro ordered ordered2 h m hm p hp d hd
      cases hdep : depsOf results m2 with
      | none =>
          simp only [linearize, hdep] at h
          exact Option.noConfusion h
      | some p2 =>
          simp only [linearize, hdep, maxOk, if_pos] at h
          rcases List.mem_cons.mp hm with rfl | hm'
          · have hpp : p2 = p := Option.some.inj (hdep.symm.trans hp)
            subst hpp
            have hd2 : d ∈ ordered ++ p2.filter (fun d2 => decide (d2 ∉ ordered)) := by
              by_cases hdo : d ∈ ordered
              · exact List.mem_append_left _ hdo
              · exact List.mem_append_right _ (List.mem_filter.mpr ⟨hd, by simpa using hdo⟩)
            exact linearize_grow results none ms _ ordered2 h d hd2
          · exact ih _ ordered2 h m hm' p hp d hd

/-- What `buildPlans` produces: each plan is a non-empty linearization of a
sub-sequence of the components, and every non-empty linearization of a
component is among the plans. -/
theorem buildPlans_spec (results : List (ℕ × List ℕ)) (maxTxn : Option ℕ)
    (changes : List ℕ) :
    ∀ (comps : List (Finset ℕ)) (plans : List (List ℕ)) (fails : List PErr),
      buildPlans results maxTxn changes comps = some (plans, fails) →
      (∃ compsSub : List (Finset ℕ), compsSub.Sublist comps ∧
        List.Forall₂ (fun q K =>
          linearize results maxTxn (linMembers changes K) [] = some q ∧ q ≠ []) plans compsSub) ∧
      (∀ K ∈ comps, ∀ ordered,
        linearize results maxTxn (linMembers changes K) [] = some ordered →
        ordered ≠ [] → ordered ∈ plans) := by
  intro comps
  induction comps with
  | nil =>
      intro plans fails h
      simp only [buildPlans] at h
      cases h
      exact ⟨⟨[], List.nil_sublist _, List.Forall₂.nil⟩, by simp⟩
  | cons K Ks ih =>
      intro plans fails h
      cases hlin : linearize results maxTxn (linMembers changes K) [] with
      | none =>
          simp only [buildPlans, hlin] at h
          exact Option.noConfusion h
      | some ordered =>
          simp only [buildPlans, hlin] at h
          cases hrec : buildPlans results maxTxn changes Ks with
          | none => rw [hrec] at h; exact Option.noConfusion h
          | some r2 =>
              rw [hrec] at h
              obtain ⟨⟨csub, hsub, hfa⟩, hcov⟩ := ih r2.1 r2.2 (by rw [hrec])
              by_cases hord : ordered = []
              · simp only [if_pos hord] at h
                cases h
                refine ⟨⟨csub, hsub.cons _, hfa⟩, ?_⟩
                intro K2 hK2 ordered2 hlin2 hne2
                rcases List.mem_cons.mp hK2 with rfl | hK2'
                · have : ordered = ordered2 := Option.some.inj (hlin.symm.trans hlin2)
                  exact absurd (this ▸ hord) hne2
                · exact hcov K2 hK2' ordered2 hlin2 hne2
              · simp only [if_neg hord] at h
                cases h
                refine ⟨⟨K :: csub, hsub.cons₂ _, List.Forall₂.cons ⟨hlin, hord⟩ hfa⟩, ?_⟩
                intro K2 hK2 ordered2 hlin2 hne2
                rcases List.mem_cons.mp hK2 with rfl | hK2'
                · have : ordered = ordered2 := Option.some.inj (hlin.symm.trans hlin2)
                  rw [← this]
                  exact List.mem_cons_self _ _
                · exact List.mem_cons_of_mem _ (hcov K2 hK2' ordered2 hlin2 hne2)

/-- A left member of a `Forall₂` has a related right member. -/
theorem forall₂_mem_left {R : List ℕ → Finset ℕ → Prop} :
    ∀ {l1 : List (List ℕ)} {l2 : List (Finset ℕ)}, List.Forall₂ R l1 l2 →
      ∀ a ∈ l1, ∃ b ∈ l2, R a b := by
  intro l1 l2 h
  induction h with
  | nil =>
      intro a ha
      simp at ha
  | @cons q K l1t l2t hqK htail ih =>
      intro a ha
      rcases List.mem_cons.mp ha with rfl | ha'
      · exact ⟨K, List.mem_cons_self _ _, hqK⟩
      · obtain ⟨b, hb, hR⟩ := ih a ha'
        exact ⟨b, List.mem_cons_of_mem _ hb, hR⟩

/-- Transfer a pairwise property through a `Forall₂` correspondence. -/
theorem pairwise_of_forall₂ {R : List ℕ → Finset ℕ → Prop}
    {D : Finset ℕ → Finset ℕ → Prop} {P : List ℕ → List ℕ → Prop}
    (hPD : ∀ q K q2 K2, R q K → R q2 K2 → D K K2 → P q q2) :
    ∀ {plans : List (List ℕ)} {Ks : List (Finset ℕ)}, List.Forall₂ R plans Ks →
      List.Pairwise D Ks → List.Pairwise P plans := by
  intro plans Ks hF
  induction hF with
  | nil =>
      intro _
      exact List.Pairwise.nil
  | @cons q K l1t l2t hqK htail ih =>
      intro hpair
      rw [List.pairwise_cons] at hpair ⊢
      obtain ⟨hball, hKs⟩ := hpair
      refine ⟨?_, ih hKs⟩
      intro q2 hq2
      obtain ⟨K2, hK2, hR2⟩ := forall₂_mem_left htail q2 hq2
      exact hPD q K q2 K2 hqK hR2 (hball K2 hK2)

/-- Every vertex of the graph lies in some computed plan. -/
theorem cdVerts_planned (env : DepEnv) (changes : List ℕ) (fuel : ℕ)
    (results : List (ℕ × List ℕ)) (mp : Bool)
    (hG1 : ∀ p ∈ results, CreateTransaction env [] (some changes) false fuel p.1 = .ok p.2)
    {x : ℕ} (hx : x ∈ cdVertsList results mp) :
    ∃ c0 p0, (c0, p0) ∈ results ∧ x ∈ p0 := by
  rcases (cdVertsList_mem results mp x).mp hx with ⟨p, hp, hxp⟩ | ⟨-, hk⟩
  · refine ⟨p.1, p.2, ?_, hxp⟩
    rw [Prod.mk.eta]
    exact hp
  · obtain ⟨pr, hpr, hpx⟩ := List.mem_map.mp hk
    have hct := hG1 pr hpr
    rw [hpx] at hct
    obtain ⟨-, hcp, -⟩ := CreateTransaction_props env [] (some changes) false fuel x pr.2
      (List.not_mem_nil x) hct
    refine ⟨x, pr.2, ?_, hcp⟩
    have hpe : (x, pr.2) = pr := by rw [← hpx]
    rw [hpe]
    exact hpr

/-- A direct gerrit or CQ dependency of a graph vertex lies in its adjacency. -/
theorem depStep_adj (env : DepEnv) (changes : List ℕ) (fuel : ℕ)
    (results : List (ℕ × List ℕ)) (proj : ℕ → ℕ) (mp : Bool)
    (hG1 : ∀ p ∈ results, CreateTransaction env [] (some changes) false fuel p.1 = .ok p.2)
    {x y : ℕ} (hx : x ∈ cdVertsList results mp) (hdep : DepStep env x y) :
    y ∈ cdAdj results proj mp x := by
  obtain ⟨c0, p0, hmem, hxp⟩ := cdVerts_planned env changes fuel results mp hG1 hx
  have hct := hG1 (c0, p0) hmem
  obtain ⟨-, -, hclose⟩ := CreateTransaction_props env [] (some changes) false fuel c0 p0
    (List.not_mem_nil c0) hct
  have hyp0 : y ∈ p0 := (hclose x hxp y hdep).resolve_left (List.not_mem_nil y)
  exact Finset.mem_union_left _ ((adjPlans_mem results x y).mpr ⟨(c0, p0), hmem, hxp, hyp0⟩)

/-- Every member of a component's linearization lies in the component, when
the component is closed under the adjacency. -/
theorem linearize_in_component (env : DepEnv) (changes : List ℕ) (fuel : ℕ)
    (results : List (ℕ × List ℕ)) (proj : ℕ → ℕ) (mp : Bool) (maxTxn : Option ℕ)
    (hG1 : ∀ p ∈ results, CreateTransaction env [] (some changes) false fuel p.1 = .ok p.2)
    (K : Finset ℕ) (hcl : ∀ w ∈ K, cdAdj results proj mp w ⊆ K)
    (q : List ℕ) (hlin : linearize results maxTxn (linMembers changes K) [] = some q) :
    ∀ x ∈ q, x ∈ K := by
  intro x hx
  rcases linearize_src results maxTxn (linMembers changes K) [] q hlin x hx with
    h0 | ⟨m, hm, p, hp, hxp⟩
  · simp at h0
  · have hmK : m ∈ K := by
      simp only [linMembers, List.mem_filter, decide_eq_true_eq] at hm
      exact hm.2
    have hmemp := depsOf_mem hp
    have hct := hG1 (m, p) hmemp
    obtain ⟨-, hmp2, -⟩ := CreateTransaction_props env [] (some changes) false fuel m p
      (List.not_mem_nil m) hct
    have hadjx : x ∈ cdAdj results proj mp m :=
      Finset.mem_union_left _ ((adjPlans_mem results m x).mpr ⟨(m, p), hmemp, hmp2, hxp⟩)
    exact hcl m hmK hadjx

/-- A successful `buildPlans` linearized every component. -/
theorem buildPlans_lin (results : List (ℕ × List ℕ)) (maxTxn : Option ℕ)
    (changes : List ℕ) :
    ∀ (comps : List (Finset ℕ)) (r2 : List (List ℕ) × List PErr),
      buildPlans results maxTxn changes comps = some r2 →
      ∀ K ∈ comps, ∃ ordered,
        linearize results maxTxn (linMembers changes K) [] = some ordered := by
  intro comps
  induction comps with
  | nil =>
      intro r2 h K hK
      simp at hK
  | cons K2 Ks ih =>
      intro r2 h K hK
      cases hlin : linearize results maxTxn (linMembers changes K2) [] with
      | none =>
          simp only [buildPlans, hlin] at h
          exact Option.noConfusion h
      | some ordered =>
          rcases List.mem_cons.mp hK with rfl | hK'
          · exact ⟨ordered, hlin⟩
          · simp only [buildPlans, hlin] at h
            cases hrec : buildPlans results maxTxn changes Ks with
            | none => rw [hrec] at h; exact Option.noConfusion h
            | some r3 => exact ih r3 hrec K hK'

/-- Strengthen a `Forall₂` with a property of the right-hand members. -/
theorem forall₂_and_right {R : List ℕ → Finset ℕ → Prop} {W : Finset ℕ → Prop} :
    ∀ {l1 : List (List ℕ)} {l2 : List (Finset ℕ)}, List.Forall₂ R l1 l2 →
      (∀ b ∈ l2, W b) → List.Forall₂ (fun a b => R a b ∧ W b) l1 l2 := by
  intro l1 l2 h
  induction h with
  | nil =>
      intro _
      exact List.Forall₂.nil
  | @cons a b l1t l2t hab htail ih =>
      intro hW
      exact List.Forall₂.cons ⟨hab, hW b (List.mem_cons_self _ _)⟩
        (ih (fun x hx => hW x (List.mem_cons_of_mem _ hx)))

/-- Claim C2 (amended): for every successful CreateDisjointTransactions
result, the output plans are pairwise disjoint, and no member of one plan has
any gerrit or CQ dependency, transitively, on a member of a different plan;
when no max_txn_length is set, every input change whose single transaction
builds successfully appears in one of the output plans (with a length limit
set, the code may silently defer such a change into no plan and no failure). -/
theorem C2_theorem (env : DepEnv) (proj : ℕ → ℕ) (changes : List ℕ) (maxTxn : Option ℕ)
    (mergeProjects : Bool) (fuel : ℕ) (plans : List (List ℕ)) (fails : List PErr)
    (h : CreateDisjointTransactions env proj changes maxTxn mergeProjects fuel =
      some (plans, fails)) :
    List.Pairwise (fun p q => (∀ x ∈ p, x ∉ q) ∧
      ∀ x ∈ p, ∀ y ∈ q, ¬ Relation.TransGen (DepStep env) x y ∧
        ¬ Relation.TransGen (DepStep env) y x) plans ∧
    (maxTxn = none → ∀ c ∈ changes, ∀ p0,
      CreateTransaction env [] (some changes) false fuel c = .ok p0 →
        ∃ q ∈ plans, c ∈ q) := by
  cases hg : gatherTx env changes fuel changes with
  | none =>
      simp only [CreateDisjointTransactions, hg] at h
      exact Option.noConfusion h
  | some r =>
      simp only [CreateDisjointTransactions, hg] at h
      set A := cdAdj r.1 proj mergeProjects with hA
      set V := cdVertsList r.1 mergeProjects with hV
      cases hbp : buildPlans r.1 maxTxn changes (compsAux A V.length V []) with
      | none =>
          simp only [hbp] at h
          exact Option.noConfusion h
      | some r2 =>
          simp only [hbp, Option.some.injEq, Prod.mk.injEq] at h
          obtain ⟨h1, h2⟩ := h
          subst h1
          subst h2
          obtain ⟨hG1, hG2⟩ := gatherTx_spec env changes fuel changes r.1 r.2 (by rw [hg])
          have hadjB : ∀ v, A v ⊆ V.toFinset := cdAdj_subset r.1 proj mergeProjects
          have hsymA : ∀ a b, a ∈ A b ↔ b ∈ A a := cdAdj_symm r.1 proj mergeProjects
          have hbV : V.toFinset.card ≤ V.length := List.toFinset_card_le V
          obtain ⟨hrep, hpairK, hcoverK, -⟩ :=
            compsAux_spec A V.toFinset V.length hadjB hsymA hbV V []
              (fun v hv => List.mem_toFinset.mpr hv) (by simp) List.Pairwise.nil
          have hKclosed : ∀ K ∈ compsAux A V.length V [], ∀ w ∈ K, A w ⊆ K := by
            intro K hK
            obtain ⟨u, huB, hKeq⟩ := hrep K hK
            rw [hKeq]
            exact reach_closed A V.toFinset V.length hadjB hbV huB
          have hstay : ∀ K ∈ compsAux A V.length V [], ∀ x ∈ K, ∀ y,
              DepStep env x y → y ∈ K := by
            intro K hK x hx y hdep
            have hxv : x ∈ V := by
              obtain ⟨u, huB, hKeq⟩ := hrep K hK
              rw [hKeq] at hx
              exact List.mem_toFinset.mp (reach_subset A V.toFinset V.length hadjB huB hx)
            exact hKclosed K hK x hx
              (depStep_adj env changes fuel r.1 proj mergeProjects hG1 hxv hdep)
          have hTG : ∀ K ∈ compsAux A V.length V [], ∀ x ∈ K, ∀ y,
              Relation.TransGen (DepStep env) x y → y ∈ K := by
            intro K hK x hx y htg
            induction htg with
            | single hs => exact hstay K hK x hx _ hs
            | tail hab hbc ih => exact hstay K hK _ ih _ hbc
          obtain ⟨⟨csub, hsubl, hfa⟩, hcovP⟩ :=
            buildPlans_spec r.1 maxTxn changes (compsAux A V.length V []) r2.1 r2.2
              (by rw [hbp])
          constructor
          · have hfa2 : List.Forall₂ (fun q K =>
                (linearize r.1 maxTxn (linMembers changes K) [] = some q ∧ q ≠ []) ∧
                  K ∈ compsAux A V.length V []) r2.1 csub :=
              forall₂_and_right hfa (fun K hK => hsubl.subset hK)
            have hpairSub : List.Pairwise (fun K1 K2 => ∀ x, x ∈ K1 → x ∉ K2) csub :=
              List.Pairwise.sublist hsubl hpairK
            refine pairwise_of_forall₂ ?_ hfa2 hpairSub
            intro q K q2 K2 hqK hq2K2 hD
            obtain ⟨⟨hlin1, -⟩, hK1⟩ := hqK
            obtain ⟨⟨hlin2, -⟩, hK2⟩ := hq2K2
            have hsubK1 : ∀ x ∈ q, x ∈ K :=
              linearize_in_component env changes fuel r.1 proj mergeProjects maxTxn hG1 K
                (hKclosed K hK1) q hlin1
            have hsubK2 : ∀ x ∈ q2, x ∈ K2 :=
              linearize_in_component env changes fuel r.1 proj mergeProjects maxTxn hG1 K2
                (hKclosed K2 hK2) q2 hlin2
            refine ⟨?_, ?_⟩
            · intro x hx hx2
              exact hD x (hsubK1 x hx) (hsubK2 x hx2)
            · intro x hx y hy
              constructor
              · intro htg
                exact hD y (hTG K hK1 x (hsubK1 x hx) y htg) (hsubK2 y hy)
              · intro htg
                exact hD x (hsubK1 x hx) (hTG K2 hK2 y (hsubK2 y hy) x htg)
          · intro hmt c hc p0 hp0
            subst hmt
            have hmem : (c, p0) ∈ r.1 := hG2 c hc p0 hp0
            obtain ⟨-, hcp0, -⟩ := CreateTransaction_props env [] (some changes) false fuel
              c p0 (List.not_mem_nil c) hp0
            have hcV : c ∈ V := by
              rw [hV]
              exact (cdVertsList_mem r.1 mergeProjects c).mpr (Or.inl ⟨(c, p0), hmem, hcp0⟩)
            obtain ⟨K, hK, hcK⟩ := hcoverK c hcV
            obtain ⟨ordered, hlin⟩ :=
              buildPlans_lin r.1 none changes (compsAux A V.length V []) r2 hbp K hK
            have hdeps : depsOf r.1 c = some p0 := depsOf_of_mem hG1 hmem
            have hcm : c ∈ linMembers changes K := by
              simp only [linMembers, List.mem_filter, List.mem_dedup, decide_eq_true_eq]
              exact ⟨hc, hcK⟩
            have hclin : c ∈ ordered :=
              linearize_cover r.1 (linMembers changes K) [] ordered hlin c hcm p0 hdeps
                c hcp0
            exact ⟨ordered, hcovP K hK ordered hlin (List.ne_nil_of_mem hclin), hclin⟩

/-- Witness for C2 at a concrete input: change 1 CQ-depends on change 0; the
disjoint partition with no length limit is the single plan [0, 1], pairwise
disjointness and coverage hold. -/
theorem C2_witness :
    List.Pairwise (fun p q => (∀ x ∈ p, x ∉ q) ∧
      ∀ x ∈ p, ∀ y ∈ q, ¬ Relation.TransGen (DepStep c1Env) x y ∧
        ¬ Relation.TransGen (DepStep c1Env) y x) ([[0, 1]] : List (List ℕ)) ∧
    ((none : Option ℕ) = none → ∀ c ∈ ([0, 1] : List ℕ), ∀ p0,
      CreateTransaction c1Env [] (some [0, 1]) false 10 c = .ok p0 →
        ∃ q ∈ ([[0, 1]] : List (List ℕ)), c ∈ q) :=
  C2_theorem c1Env (fun _ => 0) [0, 1] none false 10 [[0, 1]] [] rfl

/-- Claim C2 counterexample: with max_txn_length 1, change 1's single
transaction builds successfully as [1, 0], yet the partition defers it: it
appears in no output plan and the failure list is empty. -/
theorem C2_counterexample :
    CreateDisjointTransactions c1Env (fun _ => 0) [0, 1] (some 1) false 10 =
      some ([[0]], []) ∧
    CreateTransaction c1Env [] (some [0, 1]) false 10 1 = .ok [1, 0] ∧
    ∀ q ∈ ([[0]] : List (List ℕ)), (1 : ℕ) ∉ q :=
  ⟨rfl, rfl, by decide⟩

/-! ## ApplyEngine theorems -/

/-- The member loop only moves HEADs of repositories of its members. -/
theorem applyLoop_heads (outcome : ℕ → Option Bool) (repoOf : ℕ → ℕ) (applySha : ℕ → ℕ → ℕ)
    (com : List ℕ) :
    ∀ (cs : List ℕ) (w : World) (ft : List (ℕ × ApErr)) (ρ : ℕ), ρ ∉ cs.map repoOf →
      (applyLoop outcome repoOf applySha com cs w ft).1.heads ρ = w.heads ρ := by
  intro cs
  induction cs with
  | nil => intro w ft ρ hρ; rfl
  | cons c rest ih =>
      intro w ft ρ hρ
      have hρc : ρ ≠ repoOf c := by
        intro hcon
        exact hρ (by rw [hcon]; exact List.mem_map_of_mem _ (List.mem_cons_self _ _))
      have hρrest : ρ ∉ rest.map repoOf := by
        intro hcon
        exact hρ (by simp only [List.map_cons, List.mem_cons]; exact Or.inr hcon)
      by_cases hc : c ∈ com
      · simp only [applyLoop, if_pos hc]
        exact ih w ft ρ hρrest
      · cases ho : outcome c with
        | none =>
            simp only [applyLoop, if_neg hc, ho]
            rw [ih _ ft ρ hρrest]
            simp [setHead, hρc]
        | some infl =>
            simp only [applyLoop, if_neg hc, ho]

/-- `_ApplyChanges` only moves HEADs of repositories of its plan. -/
theorem ApplyChanges_heads (outcome : ℕ → Option Bool) (repoOf : ℕ → ℕ) (applySha : ℕ → ℕ → ℕ)
    (com : List ℕ) (plan : List ℕ) (w : World) (ft : List (ℕ × ApErr)) (ρ : ℕ)
    (hρ : ρ ∉ plan.map repoOf) :
    (ApplyChanges outcome repoOf applySha com plan w ft).1.heads ρ = w.heads ρ := by
  cases hm : plan.findSome? (fun c => lookupMemo ft c) with
  | some e => simp only [ApplyChanges, hm]
  | none =>
      simp only [ApplyChanges, hm]
      exact applyLoop_heads outcome repoOf applySha com plan w ft ρ hρ

/-- Claim C3: a transaction that raises leaves every repository HEAD equal to
its value at transaction start and the committed cache at its pre-transaction
copy; a transaction that applies cleanly keeps the committed cache extended
with the transaction's changes. -/
theorem C3_theorem (outcome : ℕ → Option Bool) (repoOf : ℕ → ℕ) (applySha : ℕ → ℕ → ℕ)
    (inducing : ℕ) (plan : List ℕ) (w : World) (com : List ℕ) (ft : List (ℕ × ApErr)) :
    (∀ e, (ApplyTransaction outcome repoOf applySha inducing plan w com ft).err = some e →
      (∀ ρ, (ApplyTransaction outcome repoOf applySha inducing plan w com ft).world.heads ρ =
        w.heads ρ) ∧
      (ApplyTransaction outcome repoOf applySha inducing plan w com ft).com = com) ∧
    ((ApplyTransaction outcome repoOf applySha inducing plan w com ft).err = none →
      (ApplyTransaction outcome repoOf applySha inducing plan w com ft).com = com ++ plan) := by
  cases herr : (ApplyChanges outcome repoOf applySha com plan w ft).2.2 with
  | none =>
      constructor
      · intro e he
        simp only [ApplyTransaction, herr] at he
        exact Option.noConfusion he
      · intro _
        simp only [ApplyTransaction, herr]
  | some e0 =>
      constructor
      · intro e he
        simp only [ApplyTransaction, herr]
        refine ⟨?_, by trivial⟩
        intro ρ
        by_cases hρ : ρ ∈ plan.map repoOf
        · simp [hρ]
        · simp only [if_neg hρ]
          exact ApplyChanges_heads outcome repoOf applySha com plan w ft ρ hρ
      · intro he
        simp only [ApplyTransaction, herr] at he
        exact Option.noConfusion he

/-- Witness for C3 at a concrete input: a two-member transaction whose second
member raises inflight rolls every HEAD back and keeps the committed cache
empty. -/
theorem C3_witness :
    (∀ ρ, (ApplyTransaction c3Outcome c3Repo c3Sha 1 [0, 1] c3World [] []).world.heads ρ =
      c3World.heads ρ) ∧
    (ApplyTransaction c3Outcome c3Repo c3Sha 1 [0, 1] c3World [] []).com = [] :=
  (C3_theorem c3Outcome c3Repo c3Sha 1 [0, 1] c3World [] []).1 ⟨1, true⟩ rfl

/-- All transaction-resolution failures are tot failures. -/
theorem CreateTransactionsAcc_tot (env : DepEnv) (com : List ℕ) (lim : Option (List ℕ))
    (fuel : ℕ) :
    ∀ (cs : List ℕ) (resolved : List (ℕ × List ℕ)) (failed : List ApErr),
      CreateTransactionsAcc env com lim fuel cs = some (resolved, failed) →
      ∀ e ∈ failed, e.inflight = false := by
  intro cs
  induction cs with
  | nil =>
      intro r f h e he
      simp only [CreateTransactionsAcc] at h
      cases h
      simp at he
  | cons c cs ih =>
      intro r f h e he
      cases hct : CreateTransaction env com lim false fuel c with
      | ok p =>
          simp only [CreateTransactionsAcc, hct] at h
          cases hrec : CreateTransactionsAcc env com lim fuel cs with
          | none => rw [hrec] at h; exact Option.noConfusion h
          | some pr =>
              rw [hrec] at h
              simp only [Option.map] at h
              cases h
              exact ih pr.1 pr.2 (by rw [hrec]) e he
      | error pe =>
          simp only [CreateTransactionsAcc, hct] at h
          by_cases hpe : pe = .fuelOut
          · rw [if_pos hpe] at h
            exact Option.noConfusion h
          · rw [if_neg hpe] at h
            cases hrec : CreateTransactionsAcc env com lim fuel cs with
            | none => rw [hrec] at h; exact Option.noConfusion h
            | some pr =>
                rw [hrec] at h
                simp only [Option.map] at h
                cases h
                rcases List.mem_cons.mp he with rfl | he'
                · rfl
                · exact ih pr.1 pr.2 (by rw [hrec]) e he'

/-- Order-preserving deduplication produces a duplicate-free list avoiding
the seen set. -/
theorem uniqAux_nodup : ∀ (l seen : List ℕ),
    (uniqAux seen l).Nodup ∧ ∀ x ∈ uniqAux seen l, x ∉ seen := by
  intro l
  induction l with
  | nil => intro seen; exact ⟨List.nodup_nil, by simp [uniqAux]⟩
  | cons x xs ih =>
      intro seen
      simp only [uniqAux]
      by_cases hx : x ∈ seen
      · rw [if_pos hx]
        exact ih seen
      · rw [if_neg hx]
        obtain ⟨hnd, hnm⟩ := ih (x :: seen)
        constructor
        · refine List.nodup_cons.mpr ⟨?_, hnd⟩
          intro hcon
          exact (hnm x hcon) (List.mem_cons_self _ _)
        · intro y hy
          rcases List.mem_cons.mp hy with rfl | hy'
          · exact hx
          · intro hcon
            exact (hnm y hy') (List.mem_cons_of_mem _ hcon)

/-- Claim C10: `Apply`'s results are consistent: the applied list has no
duplicates, no reported failure concerns an applied change, and the two
failure lists are split exactly by the inflight flag. -/
theorem C10_theorem (env : DepEnv) (outcome : ℕ → Option Bool) (repoOf : ℕ → ℕ)
    (applySha : ℕ → ℕ → ℕ) (com0 : List ℕ) (ft0 : List (ℕ × ApErr)) (changes : List ℕ)
    (frozen honorOrdering : Bool) (fuel : ℕ) (w0 : World)
    (applied : List ℕ) (ftot finf : List ApErr)
    (h : Apply env outcome repoOf applySha com0 ft0 changes frozen honorOrdering fuel w0 =
      some (applied, ftot, finf)) :
    applied.Nodup ∧ (∀ e ∈ ftot, e.inflight = false ∧ e.patch ∉ applied) ∧
      (∀ e ∈ finf, e.inflight = true ∧ e.patch ∉ applied) := by
  simp only [Apply] at h
  cases hacc : CreateTransactionsAcc env com0 (if frozen = true then some changes else none)
      fuel changes with
  | none => rw [hacc] at h; exact Option.noConfusion h
  | some pr =>
      obtain ⟨resolved, failedInit⟩ := pr
      simp only [hacc] at h
      by_cases hres : resolved = []
      · rw [if_pos hres] at h
        cases h
        refine ⟨List.nodup_nil, ?_, by simp⟩
        intro e he
        refine ⟨CreateTransactionsAcc_tot env com0 _ fuel changes resolved ftot hacc e he,
          by simp⟩
      · rw [if_neg hres] at h
        cases h
        obtain ⟨hnd, -⟩ := uniqAux_nodup
          (applyAll outcome repoOf applySha
            (if honorOrdering = true then resolved
              else sortPlans (planKeyLt (positionOf changes)) resolved)
            w0 com0 ft0 [] failedInit).2.2.2.1 []
        refine ⟨hnd, ?_, ?_⟩
        · intro e he
          simp only [List.mem_filter, decide_eq_true_eq] at he
          exact ⟨he.2, he.1.2⟩
        · intro e he
          simp only [List.mem_filter, decide_eq_true_eq] at he
          exact ⟨he.2, he.1.2⟩

/-- Witness for C10 at a concrete input: two changes, one CQ-dependent on
the other, both applying cleanly. -/
theorem C10_witness :
    Apply c1Env (fun _ => none) c3Repo c3Sha [] [] [0, 1] true false 10 c3World =
      some ([1, 0], [], []) ∧ ([1, 0] : List ℕ).Nodup :=
  ⟨rfl, (C10_theorem c1Env (fun _ => none) c3Repo c3Sha [] [] [0, 1] true false 10 c3World
    [1, 0] [] [] rfl).1⟩

/-! ## Theorems: C4, C5, C8, C9 -/

/-- Claim C4: FindSuspects rule priority.  If any candidate carries a
should-reject vote the result is exactly that subset, regardless of
`lab_fail`, `infra_fail` and the messages; otherwise if `lab_fail` is set the
result is empty; otherwise if `infra_fail` is set the result only contains
candidates from the chromite project. -/
theorem C4_theorem
    (of ps : List CLChange → List (Option BuildFailureMessage) → List CLChange)
    (changes : List CLChange) (messages : List (Option BuildFailureMessage))
    (infraFail labFail : Bool) :
    (GetShouldRejectChanges changes ≠ [] →
      FindSuspects of ps changes messages infraFail labFail = GetShouldRejectChanges changes) ∧
    (GetShouldRejectChanges changes = [] → labFail = true →
      FindSuspects of ps changes messages infraFail labFail = []) ∧
    (GetShouldRejectChanges changes = [] → labFail = false → infraFail = true →
      ∀ x ∈ FindSuspects of ps changes messages infraFail labFail,
        x ∈ changes ∧ x.project = CHROMITE_PROJECT) := by
  refine ⟨?_, ?_, ?_⟩
  · intro hbad
    simp only [FindSuspects, if_pos hbad]
  · intro hbad hlab
    simp only [FindSuspects, hbad, hlab]
    simp
  · intro hbad hlab hinfra x hx
    have hx' : x ∈ FilterChromiteChanges changes := by
      simpa [FindSuspects, hbad, hlab, hinfra] using hx
    simpa [FilterChromiteChanges, List.mem_filter] using hx'

/-- Witness for C4 at a concrete input: a single should-rejected change is
returned as the only suspect. -/
theorem C4_witness :
    FindSuspects (fun c _ => c) (fun c _ => c)
      [⟨1, "p", false, true⟩] [] false false = [⟨1, "p", false, true⟩] :=
  (C4_theorem (fun c _ => c) (fun c _ => c)
    [⟨1, "p", false, true⟩] [] false false).1 (by decide)

/-- Claim C5: grace-period filtering.  An error whose cause chain contains a
`DependencyError` is surfaced iff the change's approval timestamp is at least
`REJECTION_GRACE_PERIOD` old; every other error is always surfaced. -/
theorem C5_theorem (now : Int) (errors : List CQError) (e : CQError) :
    (chainHasDep e = true →
      (e ∈ FilterDependencyErrors now errors ↔
        e ∈ errors ∧ e.ts ≤ now - REJECTION_GRACE_PERIOD)) ∧
    (chainHasDep e = false →
      (e ∈ FilterDependencyErrors now errors ↔ e ∈ errors)) := by
  induction errors with
  | nil => simp [FilterDependencyErrors]
  | cons hd tl ih =>
    constructor
    · intro hdep
      simp only [FilterDependencyErrors]
      by_cases hc : now - REJECTION_GRACE_PERIOD < hd.ts ∧ chainHasDep hd = true
      · rw [if_pos hc]
        rw [(ih.1 hdep)]
        constructor
        · rintro ⟨hm, ht⟩
          exact ⟨List.mem_cons_of_mem _ hm, ht⟩
        · rintro ⟨hm, ht⟩
          rcases List.mem_cons.mp hm with h | h
          · subst h; exact absurd hc.1 (by omega)
          · exact ⟨h, ht⟩
      · rw [if_neg hc]
        constructor
        · intro hm
          rcases List.mem_cons.mp hm with h | h
          · subst h
            refine ⟨List.mem_cons_self _ _, ?_⟩
            rcases (Decidable.not_and_iff_or_not ..).mp hc with h' | h'
            · omega
            · exact absurd hdep h'
          · rcases (ih.1 hdep).mp h with ⟨hm', ht⟩
            exact ⟨List.mem_cons_of_mem _ hm', ht⟩
        · rintro ⟨hm, ht⟩
          rcases List.mem_cons.mp hm with h | h
          · subst h; exact List.mem_cons_self _ _
          · exact List.mem_cons_of_mem _ ((ih.1 hdep).mpr ⟨h, ht⟩)
    · intro hdep
      simp only [FilterDependencyErrors]
      by_cases hc : now - REJECTION_GRACE_PERIOD < hd.ts ∧ chainHasDep hd = true
      · rw [if_pos hc]
        rw [ih.2 hdep]
        constructor
        · intro hm; exact List.mem_cons_of_mem _ hm
        · intro hm
          rcases List.mem_cons.mp hm with h | h
          · subst h; exact absurd hc.2 (by simp [hdep])
          · exact h
      · rw [if_neg hc]
        constructor
        · intro hm
          rcases List.mem_cons.mp hm with h | h
          · subst h; exact List.mem_cons_self _ _
          · exact List.mem_cons_of_mem _ ((ih.2 hdep).mp h)
        · intro hm
          rcases List.mem_cons.mp hm with h | h
          · subst h; exact List.mem_cons_self _ _
          · exact List.mem_cons_of_mem _ ((ih.2 hdep).mpr h)

/-- Witness for C5 at a concrete input: a thirty-minute-old dependency error
is surfaced. -/
theorem C5_witness :
    CQError.leaf true 0 ∈ FilterDependencyErrors 1800 [CQError.leaf true 0] :=
  ((C5_theorem 1800 [CQError.leaf true 0] (CQError.leaf true 0)).1 rfl).mpr
    ⟨by decide, by decide⟩

/-- Claim C8: submission polling.  `_SubmitChange` returns `true` exactly when
the final observed status is MERGED or SUBMITTED; a change that stays
SUBMITTED through every poll up to the three-minute timeout is treated as
merged; a change that turns MERGED at some poll within the timeout is
submitted; a status that is neither MERGED nor SUBMITTED right after the
submit call reports failure. -/
theorem C8_theorem (query : ℕ → String) :
    (SubmitChange query = true ↔
      (SubmitChangeFinalStatus query = "MERGED" ∨ SubmitChangeFinalStatus query = "SUBMITTED")) ∧
    ((∀ i, i ≤ SUBMITTED_WAIT_TIMEOUT → query i = "SUBMITTED") → SubmitChange query = true) ∧
    (∀ k, 1 ≤ k → k ≤ SUBMITTED_WAIT_TIMEOUT → query 0 = "SUBMITTED" →
      (∀ i, 1 ≤ i → i < k → query i = "SUBMITTED") → query k = "MERGED" →
      SubmitChange query = true) ∧
    (query 0 ≠ "SUBMITTED" → query 0 ≠ "MERGED" → SubmitChange query = false) := by
  have hiff : ∀ q : ℕ → String, SubmitChange q = true ↔
      (SubmitChangeFinalStatus q = "MERGED" ∨ SubmitChangeFinalStatus q = "SUBMITTED") := by
    intro q
    simp only [SubmitChange]
    by_cases h1 : SubmitChangeFinalStatus q = "MERGED"
    · simp [h1]
    · by_cases h2 : SubmitChangeFinalStatus q = "SUBMITTED" <;> simp [h1, h2]
  have hwait_none : ∀ n i, (∀ j, i ≤ j → j < i + n → query j = "SUBMITTED") →
      waitNotSubmitted query n i = none := by
    intro n
    induction n with
    | zero => intro i _; rfl
    | succ m ih =>
      intro i hall
      have hi : query i = "SUBMITTED" := hall i le_rfl (by omega)
      simp only [waitNotSubmitted, if_pos hi]
      exact ih (i + 1) (fun j hj1 hj2 => hall j (by omega) (by omega))
  have hwait_find : ∀ n i k, i ≤ k → k < i + n →
      (∀ j, i ≤ j → j < k → query j = "SUBMITTED") → query k ≠ "SUBMITTED" →
      waitNotSubmitted query n i = some (query k) := by
    intro n
    induction n with
    | zero => intro i k h1 h2; omega
    | succ m ih =>
      intro i k h1 h2 hall hk
      rcases Nat.eq_or_lt_of_le h1 with heq | hlt
      · subst heq
        simp only [waitNotSubmitted, if_neg hk]
      · have hi : query i = "SUBMITTED" := hall i le_rfl hlt
        simp only [waitNotSubmitted, if_pos hi]
        exact ih (i + 1) k (by omega) (by omega) (fun j hj1 hj2 => hall j (by omega) hj2) hk
  refine ⟨hiff query, ?_, ?_, ?_⟩
  · intro hall
    rw [hiff query]
    right
    have h0 : query 0 = "SUBMITTED" := hall 0 (Nat.zero_le _)
    simp only [SubmitChangeFinalStatus, if_pos h0]
    rw [hwait_none SUBMITTED_WAIT_TIMEOUT 1 (fun j hj1 hj2 => hall j (by omega))]
    simpa using h0
  · intro k hk1 hk2 h0 hmid hkm
    rw [hiff query]
    left
    simp only [SubmitChangeFinalStatus, if_pos h0]
    rw [hwait_find SUBMITTED_WAIT_TIMEOUT 1 k hk1 (by omega) hmid (by rw [hkm]; decide)]
    simpa using hkm
  · intro h1 h2
    simp only [SubmitChange, SubmitChangeFinalStatus, if_neg h1]
    have hb1 : (query 0 == "MERGED") = false := by
      simpa using h2
    have hb2 : (query 0 == "SUBMITTED") = false := by
      simpa using h1
    simp [hb1, hb2]

/-- Witness for C8 at a concrete input: a change stuck on SUBMITTED through
the whole wait window is treated as merged. -/
theorem C8_witness : SubmitChange (fun _ => "SUBMITTED") = true :=
  (C8_theorem (fun _ => "SUBMITTED")).2.1 (fun _ _ => rfl)

/-- The latest-patchset URL extends the all-patchset URL with the patch
number. -/
theorem GetCLStatusURL_true_eq (bot : String) (change : GerritChange) :
    GetCLStatusURL bot change true =
      GetCLStatusURL bot change false ++ "/" ++ toString change.patchNumber := rfl

/-- The all-patchset and latest-patchset URLs stay distinct under a common
single suffix. -/
theorem statusURL_ne₁ (bot : String) (change : GerritChange) (a : String) :
    GetCLStatusURL bot change false ++ a ≠ GetCLStatusURL bot change true ++ a := by
  intro h
  have h2 := congrArg String.length h
  rw [GetCLStatusURL_true_eq] at h2
  simp only [String.length_append] at h2
  have hs : ("/" : String).length = 1 := rfl
  omega

/-- The all-patchset and latest-patchset URLs stay distinct under a common
double suffix. -/
theorem statusURL_ne₂ (bot : String) (change : GerritChange) (a b : String) :
    GetCLStatusURL bot change false ++ a ++ b ≠ GetCLStatusURL bot change true ++ a ++ b := by
  intro h
  have h2 := congrArg String.length h
  rw [GetCLStatusURL_true_eq] at h2
  simp only [String.length_append] at h2
  have hs : ("/" : String).length = 1 := rfl
  omega

/-- Claim C6 (amended): a non-dry-run `UpdateCLStatus` writes the status
marker at both the latest-patchset and all-patchset URLs and increments both
counters; a subsequent `GetCLStatus` returns the status; a subsequent
`GetCLStatusCount` returns at least 1 provided the count for that key was not
already in the process-wide cache (otherwise the stale cached value is
returned). -/
theorem C6_theorem (bot : String) (change : GerritChange) (status : String) (s : GSState) :
    (UpdateCLStatus bot change status false s).objs
        (GetCLStatusURL bot change true ++ "/status") = some status ∧
    (UpdateCLStatus bot change status false s).objs
        (GetCLStatusURL bot change false ++ "/status") = some status ∧
    (UpdateCLStatus bot change status false s).counters
        (GetCLStatusURL bot change true ++ "/" ++ status) =
      s.counters (GetCLStatusURL bot change true ++ "/" ++ status) + 1 ∧
    (UpdateCLStatus bot change status false s).counters
        (GetCLStatusURL bot change false ++ "/" ++ status) =
      s.counters (GetCLStatusURL bot change false ++ "/" ++ status) + 1 ∧
    GetCLStatus bot change (UpdateCLStatus bot change status false s) = some status ∧
    (s.statusCache (bot, change, status, true) = none →
      1 ≤ (GetCLStatusCount bot change status true (UpdateCLStatus bot change status false s)).1) := by
  have hne1 : GetCLStatusURL bot change false ++ "/status" ≠
      GetCLStatusURL bot change true ++ "/status" := statusURL_ne₁ bot change "/status"
  have hne2 : GetCLStatusURL bot change false ++ "/" ++ status ≠
      GetCLStatusURL bot change true ++ "/" ++ status := statusURL_ne₂ bot change "/" status
  have hobjT : (UpdateCLStatus bot change status false s).objs
      (GetCLStatusURL bot change true ++ "/status") = some status := by
    simp [UpdateCLStatus, gsSetObj, gsIncrCounter]
  have hobjF : (UpdateCLStatus bot change status false s).objs
      (GetCLStatusURL bot change false ++ "/status") = some status := by
    simp [UpdateCLStatus, gsSetObj, gsIncrCounter, if_neg hne1]
  have hcntT : (UpdateCLStatus bot change status false s).counters
      (GetCLStatusURL bot change true ++ "/" ++ status) =
      s.counters (GetCLStatusURL bot change true ++ "/" ++ status) + 1 := by
    simp [UpdateCLStatus, gsSetObj, gsIncrCounter, if_neg (Ne.symm hne2), if_neg hne2]
  have hcntF : (UpdateCLStatus bot change status false s).counters
      (GetCLStatusURL bot change false ++ "/" ++ status) =
      s.counters (GetCLStatusURL bot change false ++ "/" ++ status) + 1 := by
    simp [UpdateCLStatus, gsSetObj, gsIncrCounter, if_neg hne2]
  have hcache : (UpdateCLStatus bot change status false s).statusCache =
      s.statusCache := by
    simp [UpdateCLStatus, gsSetObj, gsIncrCounter]
  refine ⟨hobjT, hobjF, hcntT, hcntF, hobjT, ?_⟩
  intro hmiss
  simp only [GetCLStatusCount, hcache, hmiss, hcntT]
  omega

/-- Witness for C6 at a concrete input: on a fresh store the written status is
read back and the count is at least one. -/
theorem C6_witness :
    GetCLStatus "b" ⟨false, 3, 4⟩ (UpdateCLStatus "b" ⟨false, 3, 4⟩ "passed" false emptyGS) =
      some "passed" ∧
    1 ≤ (GetCLStatusCount "b" ⟨false, 3, 4⟩ "passed" true
      (UpdateCLStatus "b" ⟨false, 3, 4⟩ "passed" false emptyGS)).1 :=
  ⟨( C6_theorem "b" ⟨false, 3, 4⟩ "passed" emptyGS).2.2.2.2.1,
   ( C6_theorem "b" ⟨false, 3, 4⟩ "passed" emptyGS).2.2.2.2.2 rfl⟩

/-- Claim C6 counterexample: when the process-wide count cache already holds a
zero for the key, `GetCLStatusCount` right after `UpdateCLStatus` returns the
stale zero, not at least 1. -/
theorem C6_counterexample :
    GetCLStatus "cq-bot" ⟨false, 1, 2⟩
        (UpdateCLStatus "cq-bot" ⟨false, 1, 2⟩ "passed" false staleCacheGS) = some "passed" ∧
    (GetCLStatusCount "cq-bot" ⟨false, 1, 2⟩ "passed" true
        (UpdateCLStatus "cq-bot" ⟨false, 1, 2⟩ "passed" false staleCacheGS)).1 = 0 := by
  constructor
  · rfl
  · rfl

/-- Claim C7 (amended): for each change whose current status is not already
passed or ready-to-submit, a success notification is sent and the new status
is ready-to-submit iff EVERY change in the pool has submit-in-pre-cq enabled
(the source computes one `all(...)` flag for the whole pool), else passed;
changes already passed or ready-to-submit are left untouched. -/
theorem C7_theorem (cfg : ℕ → Option String) (changes : List ℕ)
    (clStatus : ℕ → Option String) (c : ℕ) (hc : c ∈ changes) :
    ((clStatus c = some STATUS_PASSED ∨ clStatus c = some STATUS_READY_TO_SUBMIT) →
      (c, (none : Option String)) ∈ HandlePreCQSuccess cfg changes clStatus) ∧
    (¬(clStatus c = some STATUS_PASSED ∨ clStatus c = some STATUS_READY_TO_SUBMIT) →
      (c, some (if changes.all (fun x => ShouldSubmitChangeInPreCQ cfg x) then
        STATUS_READY_TO_SUBMIT else STATUS_PASSED)) ∈ HandlePreCQSuccess cfg changes clStatus) := by
  constructor
  · intro h
    simp only [HandlePreCQSuccess, List.mem_map]
    exact ⟨c, hc, by rw [if_pos h]⟩
  · intro h
    simp only [HandlePreCQSuccess, List.mem_map]
    exact ⟨c, hc, by rw [if_neg h]⟩

/-- Witness for C7 at a concrete input: a change with no prior status in a
pool where every project opts in is set to ready-to-submit. -/
theorem C7_witness :
    (5, some STATUS_READY_TO_SUBMIT) ∈
      HandlePreCQSuccess (fun _ => some "yes") [5] (fun _ => none) := by
  have h := (C7_theorem (fun _ => some "yes") [5] (fun _ => none) 5 (by decide)).2
    (by simp [STATUS_PASSED, STATUS_READY_TO_SUBMIT])
  have hall : ([5].all (fun x => ShouldSubmitChangeInPreCQ (fun _ => some "yes") x)) = true := by
    decide
  simpa [hall] using h

/-- Claim C7 counterexample: in a pool of two changes where only change 0's
project enables submit-in-pre-cq, change 0 is set to passed, not
ready-to-submit, because the source computes the flag with `all(...)` over the
whole pool. -/
theorem C7_counterexample :
    HandlePreCQSuccess (fun c => if c = 0 then some "yes" else none) [0, 1] (fun _ => none) =
      [(0, some STATUS_PASSED), (1, some STATUS_PASSED)] ∧
    ShouldSubmitChangeInPreCQ (fun c => if c = 0 then some "yes" else none) 0 = true ∧
    STATUS_PASSED ≠ STATUS_READY_TO_SUBMIT := by
  refine ⟨?_, by decide, by decide⟩
  rfl

/-- Claim C9 counterexample: for a 32001-byte message the stored text is
already 32015 bytes (32000 plus the truncation marker), so the posted body
exceeds 32000 bytes; the claim that every posted body is at most 32000 bytes
is false. -/
theorem C9_counterexample :
    (PaladinMessageText (List.replicate 32001 'a')).length = 32015 ∧
    MAX_MESSAGE_LEN < (ConstructPaladinMessage (List.replicate 32001 'a')).length := by
  have hm : truncatedMarker.length = 15 := by decide
  have hlen : (PaladinMessageText (List.replicate 32001 'a')).length = 32015 := by
    have hcond : MAX_MESSAGE_LEN < (List.replicate 32001 'a').length := by
      rw [List.length_replicate]
      norm_num [MAX_MESSAGE_LEN]
    unfold PaladinMessageText
    rw [if_pos hcond]
    simp only [List.length_append, List.take_replicate, List.length_replicate]
    rw [hm]
    norm_num [MAX_MESSAGE_LEN]
  refine ⟨hlen, ?_⟩
  simp only [ConstructPaladinMessage, List.length_append, hlen, MAX_MESSAGE_LEN]
  omega

/-- Claim C9 (amended): the message stored by `PaladinMessage` is at most
`MAX_MESSAGE_LEN` plus the truncation-marker length, and the posted body is
at most that plus the fixed documentation footer; the 32000-byte bound
applies to the truncated input message, not to the posted body. -/
theorem C9_theorem (message : List Char) :
    (PaladinMessageText message).length ≤ MAX_MESSAGE_LEN + truncatedMarker.length ∧
    (ConstructPaladinMessage message).length ≤
      MAX_MESSAGE_LEN + truncatedMarker.length +
        (paladinFooterText.length + PALADIN_DOCUMENTATION_URL.length) := by
  have h1 : (PaladinMessageText message).length ≤ MAX_MESSAGE_LEN + truncatedMarker.length := by
    simp only [PaladinMessageText]
    by_cases h : MAX_MESSAGE_LEN < message.length
    · rw [if_pos h]
      simp only [List.length_append, List.length_take]
      omega
    · rw [if_neg h]
      omega
  refine ⟨h1, ?_⟩
  simp only [ConstructPaladinMessage, List.length_append]
  omega

end CQ
